import Mathlib

/-!
Verification development for the offline website mirroring engine
(`fliphtml5-downloader`, file `src/unnamed/part_002`).

The JavaScript source is shallowly embedded: every pure function is
translated to an executable Lean definition; the stateful download
scheduler is modelled as a labelled small-step relation; network and
disk effects are passed explicitly as oracle parameters.  Machine
integers do not occur (the source manipulates strings, lists and small
natural numbers only).  Strings are handled through their underlying
`List Char`, which matches JavaScript string semantics for the
code-point ranges the source touches.
-/

/-! ## Basic list/char utilities -/

/-- `p` is a leading segment of `s` (used to embed JS `String.startsWith`). -/
def isPre : List Char → List Char → Bool
  | [], _ => true
  | _ :: _, [] => false
  | p :: ps, s :: ss => p = s && isPre ps ss

/-- JS `String.prototype.startsWith` on embedded strings. -/
def strStarts (s pre : String) : Bool :=
  isPre pre.data s.data

/-- `needle` occurs somewhere inside `hay` (JS `String.prototype.includes`). -/
def hasSub : List Char → List Char → Bool
  | [], _ => true
  | _ :: _, [] => false
  | n, c :: cs => isPre n (c :: cs) || hasSub n cs

/-- JS `String.prototype.includes` on `String`. -/
def strIncludes (s sub : String) : Bool :=
  hasSub sub.data s.data

/-- ASCII lower-casing of a character (JS strings are compared
case-insensitively by the source only through `/i` regexes). -/
def lowerChar (c : Char) : Char :=
  if 'A' ≤ c ∧ c ≤ 'Z' then Char.ofNat (c.toNat + 32) else c

/-! ## Node `path` (posix) helpers

The source uses `path.extname`, `path.basename`, `path.dirname`,
`path.join`; these embed the Node.js posix implementations. -/

/-- Split a character list on `/` (keeping empty segments, as the posix
path functions see them before normalization). -/
def splitSlash : List Char → List (List Char)
  | [] => [[]]
  | c :: cs =>
    match splitSlash cs with
    | [] => [[]]
    | s :: rest => if c = '/' then [] :: s :: rest else (c :: s) :: rest

/-- Join segments with `/` separators (inverse of `splitSlash`). -/
def joinSegs : List (List Char) → List Char
  | [] => []
  | [s] => s
  | s :: t :: rest => s ++ '/' :: joinSegs (t :: rest)

/-- One processed segment list for posix `normalize`: empty and `.`
segments are dropped, `..` pops the previous segment (kept literally at
the head of a relative path, dropped at the root of an absolute one). -/
def normGo (isAbs : Bool) (acc : List (List Char)) : List (List Char) → List (List Char)
  | [] => acc
  | s :: rest =>
    if s = [] ∨ s = ['.'] then normGo isAbs acc rest
    else if s = ['.', '.'] then
      if acc ≠ [] ∧ acc.getLast? ≠ some ['.', '.'] then normGo isAbs acc.dropLast rest
      else if isAbs then normGo isAbs acc rest
      else normGo isAbs (acc ++ [s]) rest
    else normGo isAbs (acc ++ [s]) rest

/-- Node posix `path.normalize` (trailing-slash preservation is not
reproduced; no caller in the source joins a path ending in `/`). -/
def pathNormalize (l : List Char) : List Char :=
  let isAbs := l.head? = some '/'
  let segs := normGo isAbs [] (splitSlash l)
  match segs with
  | [] => if isAbs then ['/'] else ['.']
  | s :: rest => if isAbs then '/' :: joinSegs (s :: rest) else joinSegs (s :: rest)

/-- Node posix `path.join` restricted to two arguments, as called by the
source (`path.join(dir, name)`, `path.join(outputDir, localPath)`). -/
def pathJoin (a b : String) : String :=
  if a = "" ∧ b = "" then "."
  else if a = "" then ⟨pathNormalize b.data⟩
  else if b = "" then ⟨pathNormalize a.data⟩
  else ⟨pathNormalize (a.data ++ '/' :: b.data)⟩

/-- Drop trailing `/` characters (shared helper of `basename`/`dirname`). -/
def dropTrailingSlashes (l : List Char) : List Char :=
  (l.reverse.dropWhile (fun c => c = '/')).reverse

/-- Node posix `path.basename(p)`: the part after the last `/`, with
trailing slashes ignored. -/
def pathBasename (p : String) : String :=
  let l := dropTrailingSlashes p.data
  ⟨(l.reverse.takeWhile (fun c => c ≠ '/')).reverse⟩

/-- Node posix `path.basename(p, ext)`: strips a trailing `ext` unless the
basename is exactly `ext`. -/
def pathBasenameExt (p ext : String) : String :=
  let b := pathBasename p
  if ext ≠ "" ∧ b ≠ ext ∧ isPre ext.data.reverse b.data.reverse then
    ⟨b.data.take (b.data.length - ext.data.length)⟩
  else b

/-- Node posix `path.extname`: from the last `.` of the basename to its
end, empty when the basename has no dot or only a leading dot. -/
def pathExtname (p : String) : String :=
  let b := (pathBasename p).data
  let tail := b.reverse.takeWhile (fun c => c ≠ '.')
  if tail.length = b.length then ""
  else if tail.length + 1 = b.length ∧ b.head? = some '.' then ""
  else ⟨'.' :: tail.reverse⟩

/-- Node posix `path.dirname`. -/
def pathDirname (p : String) : String :=
  let l := p.data
  let l1 := dropTrailingSlashes l
  if l1 = [] then (if l.head? = some '/' then "/" else ".")
  else
    let r := (l1.reverse.dropWhile (fun c => c ≠ '/')).drop 1
    if r = [] then (if l.head? = some '/' then "/" else ".") else ⟨r.reverse⟩

/-! ## UTF-8 and base64 (for the query-string hash)

The source computes `Buffer.from(urlObj.search).toString('base64')`,
i.e. standard base64 over the UTF-8 bytes of the query string. -/

/-- UTF-8 encoding of one code point. -/
def utf8Char (c : Char) : List Nat :=
  let n := c.toNat
  if n < 0x80 then [n]
  else if n < 0x800 then [0xC0 + n / 64, 0x80 + n % 64]
  else if n < 0x10000 then [0xE0 + n / 4096, 0x80 + (n / 64) % 64, 0x80 + n % 64]
  else [0xF0 + n / 262144, 0x80 + (n / 4096) % 64, 0x80 + (n / 64) % 64, 0x80 + n % 64]

/-- UTF-8 bytes of a string. -/
def utf8Bytes (l : List Char) : List Nat :=
  l.flatMap utf8Char

/-- The standard base64 alphabet. -/
def b64Alphabet : List Char :=
  "ABCDEFGHIJKLMNOPQRSTUVWXYZabcdefghijklmnopqrstuvwxyz0123456789+/".data

/-- Character for a 6-bit group. -/
def b64Char (n : Nat) : Char :=
  b64Alphabet.getD n 'A'

/-- Standard (padded) base64 of a byte list, as produced by Node
`Buffer.toString('base64')`. -/
def base64Enc : List Nat → List Char
  | b1 :: b2 :: b3 :: rest =>
    b64Char (b1 / 4) :: b64Char ((b1 % 4) * 16 + b2 / 16) ::
      b64Char ((b2 % 16) * 4 + b3 / 64) :: b64Char (b3 % 64) :: base64Enc rest
  | [b1, b2] =>
    [b64Char (b1 / 4), b64Char ((b1 % 4) * 16 + b2 / 16), b64Char ((b2 % 16) * 4), '=']
  | [b1] => [b64Char (b1 / 4), b64Char ((b1 % 4) * 16), '=', '=']
  | [] => []

/-- The query hash of `getLocalPath` (lines 281 of the source):
`Buffer.from(search).toString('base64').slice(0, 8).replace(/[\/+=]/g, '_')`. -/
def queryHash (search : String) : String :=
  ⟨((base64Enc (utf8Bytes search.data)).take 8).map
    (fun c => if c = '/' ∨ c = '+' ∨ c = '=' then '_' else c)⟩

/-! ## URL model

The source relies on the WHATWG `URL` class only through `new URL(u)`,
`new URL(u, base)`, `.href`, `.host`, `.pathname`, `.search`,
`.protocol`.  `UrlRec` embeds the observable fields and `parseAbsUrl` /
`urlResolve` embed the constructor for http(s)-style URLs (scheme and
host lower-cased, default ports elided, dot segments removed — the
normalizations WHATWG applies that are observable to this program). -/

structure UrlRec where
  protocol : String
  host : String
  pathname : String
  search : String
  frag : String
  deriving DecidableEq

/-- Serialization, i.e. the `.href` property. -/
def urlHref (u : UrlRec) : String :=
  u.protocol ++ "//" ++ u.host ++ u.pathname ++ u.search ++ u.frag

/-- WHATWG `remove_dot_segments`, on the segments of a path that begins
with `/` (empty segments are preserved, matching `new URL`). -/
def dotGo (acc : List (List Char)) : List (List Char) → List (List Char)
  | [] => acc
  | s :: rest =>
    if s = ['.'] then
      if rest = [] then acc ++ [[]] else dotGo acc rest
    else if s = ['.', '.'] then
      if rest = [] then acc.dropLast ++ [[]] else dotGo acc.dropLast rest
    else dotGo (acc ++ [s]) rest

/-- Apply dot-segment removal to a pathname (which starts with `/`). -/
def urlNormalizePath (p : String) : String :=
  match p.data with
  | '/' :: rest =>
    let segs := dotGo [] (splitSlash rest)
    ⟨'/' :: joinSegs segs⟩
  | _ => p

/-- Split `rest-of-url` into (path, search, frag) at the first `?` / `#`. -/
def splitPathSearchFrag (l : List Char) : List Char × List Char × List Char :=
  let noFrag := l.takeWhile (fun c => c ≠ '#')
  let frag := l.dropWhile (fun c => c ≠ '#')
  let p := noFrag.takeWhile (fun c => c ≠ '?')
  let q := noFrag.dropWhile (fun c => c ≠ '?')
  (p, q, frag)

/-- Scheme characters accepted before `://`. -/
def isSchemeChar (c : Char) : Bool :=
  ('a' ≤ c ∧ c ≤ 'z') ∨ ('A' ≤ c ∧ c ≤ 'Z') ∨ ('0' ≤ c ∧ c ≤ '9') ∨ c = '+' ∨ c = '-' ∨ c = '.'

/-- Parse an absolute `scheme://host...` URL; `none` models the `URL`
constructor throwing.  Elides default ports and lower-cases scheme and
host, as WHATWG does. -/
def parseAbsUrl (s : String) : Option UrlRec :=
  let l := s.data
  let scheme := l.takeWhile isSchemeChar
  let rest := l.drop scheme.length
  match scheme, rest with
  | [], _ => none
  | _, ':' :: '/' :: '/' :: rest2 =>
    let hostPort := rest2.takeWhile (fun c => c ≠ '/' ∧ c ≠ '?' ∧ c ≠ '#')
    if hostPort = [] then none
    else
      let afterHost := rest2.drop hostPort.length
      let schemeL := scheme.map lowerChar
      let hostL := hostPort.map lowerChar
      let hostName := hostL.takeWhile (fun c => c ≠ ':')
      let port := (hostL.dropWhile (fun c => c ≠ ':')).drop 1
      let host :=
        if (schemeL = ['h','t','t','p','s'] ∧ port = ['4','4','3']) ∨
           (schemeL = ['h','t','t','p'] ∧ port = ['8','0']) then hostName
        else hostL
      let (p, q, f) := splitPathSearchFrag afterHost
      let pathname := if p = [] then "/" else urlNormalizePath ⟨p⟩
      some { protocol := ⟨schemeL ++ [':']⟩, host := ⟨host⟩,
             pathname := pathname, search := ⟨q⟩, frag := ⟨f⟩ }
  | _, _ => none

/-- The directory part of a base pathname: everything up to and
including the last `/` (WHATWG relative-reference merge). -/
def baseDirOf (p : String) : List Char :=
  (p.data.reverse.dropWhile (fun c => c ≠ '/')).reverse

/-- Embed `new URL(input, base)` for the reference shapes the source
produces: absolute, protocol-relative (`//`), path-absolute (`/...`),
query-only (`?...`), fragment-only (`#...`) and relative-path inputs. -/
def urlResolve (input base : String) : Option UrlRec :=
  match parseAbsUrl input with
  | some u => some u
  | none =>
    match parseAbsUrl base with
    | none => none
    | some b =>
      if strStarts input "//" then parseAbsUrl (b.protocol ++ input)
      else if strStarts input "/" then
        let (p, q, f) := splitPathSearchFrag input.data
        some { b with pathname := urlNormalizePath ⟨p⟩, search := ⟨q⟩, frag := ⟨f⟩ }
      else if strStarts input "?" then
        let noFrag := input.data.takeWhile (fun c => c ≠ '#')
        let f := input.data.dropWhile (fun c => c ≠ '#')
        some { b with search := ⟨noFrag⟩, frag := ⟨f⟩ }
      else if strStarts input "#" then
        some { b with frag := input }
      else
        let (p, q, f) := splitPathSearchFrag input.data
        some { b with pathname := urlNormalizePath ⟨baseDirOf b.pathname ++ p⟩,
                      search := ⟨q⟩, frag := ⟨f⟩ }

/-! ## `resolveUrl` and `getLocalPath` (source lines 251–294) -/

/-- `resolveUrl(assetUrl, baseUrl)`: `null` for data URIs and fragment
anchors, otherwise `new URL(assetUrl, baseUrl).href`, `null` on a parse
failure. -/
def resolveUrl (assetUrl baseUrl : String) : Option String :=
  if strStarts assetUrl "data:" ∨ strStarts assetUrl "#" then none
  else (urlResolve assetUrl baseUrl).map urlHref

/-- JS `replace(/^\/+/, '')`: strip every leading slash. -/
def stripLeadingSlashes (s : String) : String :=
  ⟨s.data.dropWhile (fun c => c = '/')⟩

/-- `getLocalPath` on already-parsed URLs (the body of the `try` block,
lines 268–290): same-host URLs map to their slash-stripped path, with a
`_<hash>` filename suffix when a query string is present; other hosts
map under `external/<host><path>`. -/
def getLocalPathRec (u b : UrlRec) : String :=
  if u.host = b.host then
    let lp := stripLeadingSlashes u.pathname
    if u.search ≠ "" then
      let ext := pathExtname lp
      let bas := pathBasenameExt lp ext
      let dir := pathDirname lp
      pathJoin dir (bas ++ "_" ++ queryHash u.search ++ ext)
    else lp
  else stripLeadingSlashes ("external/" ++ u.host ++ u.pathname)

/-- `getLocalPath(assetUrl, baseUrl)`: both arguments must parse as
absolute URLs (`new URL(assetUrl)`, `new URL(baseUrl)`), else `null`. -/
def getLocalPath (assetUrl baseUrl : String) : Option String :=
  match parseAbsUrl assetUrl, parseAbsUrl baseUrl with
  | some u, some b => some (getLocalPathRec u b)
  | _, _ => none

/-! ## `rewriteUrls` (source lines 308–337)

The HTML pass regex-replaces each
`(src|href|data-src|data-original)\s*=\s*["'] value ["']` occurrence,
the CSS pass each `url( value )` occurrence.  A document is embedded as
the regex lexer sees it: an interleaving of literal text and matched
occurrences; the pass maps the per-match replacement function over the
matches and leaves literal text alone.  (A rewritten match is again a
match of the same shape on a later pass, because local paths contain no
quote characters, so this model also describes re-application.) -/

inductive HtmlChunk where
  | lit (s : String)
  | attr (name : String) (q : Char) (value : String)
  deriving DecidableEq

inductive CssChunk where
  | lit (s : String)
  | urlRef (value : String)
  deriving DecidableEq

/-- The HTML-mode replacement applied to one matched attribute value
(lines 314–321): resolve, classify, substitute; on any failure return
the match unchanged.  `if (!localPath) return match` (line 319) is a JS
falsy check, so a classification to the *empty* local path (a same-host
root URL) also leaves the match untouched. -/
def rewriteHtmlValue (baseUrl v : String) : String :=
  match resolveUrl v baseUrl with
  | none => v
  | some abs =>
    match getLocalPath abs baseUrl with
    | none => v
    | some lp => if lp = "" then v else lp

/-- One HTML chunk through the pass: the prefix `name=` and the quotes
are re-emitted verbatim, only the value is replaced. -/
def rewriteHtmlChunk (baseUrl : String) : HtmlChunk → HtmlChunk
  | .lit s => .lit s
  | .attr n q v => .attr n q (rewriteHtmlValue baseUrl v)

/-- The HTML rewriting pass over a document. -/
def rewriteUrlsHtml (baseUrl : String) (doc : List HtmlChunk) : List HtmlChunk :=
  doc.map (rewriteHtmlChunk baseUrl)

/-- The CSS-mode replacement applied to one matched `url(...)` value
(lines 324–335): data URIs pass through, otherwise resolve, classify,
substitute (the replacement text is `url("<local>")`).  As in the HTML
branch, `if (!localPath) return match` (lines 330–331) is a falsy
check, so an empty local path also leaves the match untouched. -/
def rewriteCssValue (baseUrl v : String) : String :=
  if strStarts v "data:" then v
  else
    match resolveUrl v baseUrl with
    | none => v
    | some abs =>
      match getLocalPath abs baseUrl with
      | none => v
      | some lp => if lp = "" then v else lp

/-- One CSS chunk through the pass. -/
def rewriteCssChunk (baseUrl : String) : CssChunk → CssChunk
  | .lit s => .lit s
  | .urlRef v => .urlRef (rewriteCssValue baseUrl v)

/-- The CSS rewriting pass over a document. -/
def rewriteUrlsCss (baseUrl : String) (doc : List CssChunk) : List CssChunk :=
  doc.map (rewriteCssChunk baseUrl)

/-! ## `fetchWithRetry` (source lines 138–148)

`ok i` tells whether the i-th fetch attempt (0-based) succeeds; the
model returns whether the call succeeds overall together with the list
of inter-attempt delays, in order.  The source inserts
`CONFIG.retryDelay * (i + 1)` milliseconds after failed attempt `i`
unless it was the last allowed attempt. -/

def fetchRetryGo (ok : Nat → Bool) (retryDelay : Nat) : Nat → Nat → Bool × List Nat
  | 0, _ => (false, [])
  | rem + 1, i =>
    if ok i then (true, [])
    else if rem = 0 then (false, [])
    else
      let r := fetchRetryGo ok retryDelay rem (i + 1)
      (r.1, retryDelay * (i + 1) :: r.2)

/-- `fetchWithRetry(url, options, retries)`: success flag and backoff
delays.  A `false` flag models the final error being re-thrown. -/
def fetchWithRetryModel (ok : Nat → Bool) (retryDelay retries : Nat) : Bool × List Nat :=
  fetchRetryGo ok retryDelay retries 0

/-- Number of network attempts `fetchWithRetry` performs. -/
def fetchAttemptsGo (ok : Nat → Bool) : Nat → Nat → Nat
  | 0, _ => 0
  | rem + 1, i => if ok i then 1 else if rem = 0 then 1 else 1 + fetchAttemptsGo ok rem (i + 1)

/-- Attempt count of `fetchWithRetry` with the given retry budget. -/
def fetchAttemptsModel (ok : Nat → Bool) (retries : Nat) : Nat :=
  fetchAttemptsGo ok retries 0

/-! ## `downloadAsset` (source lines 342–370)

Disk state is the set of existing paths; the fetch outcome oracle and
the fetched body are parameters.  The model returns the source's result
object (or `none`, as when `getLocalPath` yields a falsy value) and the
number of network attempts performed. -/

inductive DlStatus where
  | downloaded
  | cached
  | failed
  deriving DecidableEq

structure DlResult where
  url : String
  localPath : Option String
  status : DlStatus
  additionalAssets : List (Option String)
  deriving DecidableEq

/-- JS `String.prototype.endsWith`. -/
def strEnds (s suf : String) : Bool :=
  isPre suf.data.reverse s.data.reverse

/-! ## `downloadBookPages` (source lines 423–473)

For page index `i` the source tries six URL templates in order
(`files/mobile/<i>.jpg`, `files/mobile/<i>.png`, `files/large/<i>.jpg`,
`files/thumb/<i>.jpg`, `mobile/<i>.jpg`, `<i>.jpg`, each relative to
the book base URL); template slot `t` of index `i` stands for the t-th
of these URLs, so distinct `(i, t)` pairs denote distinct URLs.  Each
probe is a single `fetchWithRetry(pattern, {}, 1)` call, i.e. exactly
one network attempt.  `serves i t` tells whether that fetch succeeds. -/

structure ProbeResult where
  pages : List Nat
  attempts : List (Nat × Nat)
  deriving DecidableEq

/-- The inner `for (const pattern of patterns)` loop: probe slots in
order, stop at the first hit.  Returns the attempts made (in order) and
whether some template was found. -/
def probeSlots (serves : Nat → Nat → Bool) (i : Nat) : List Nat → List (Nat × Nat) × Bool
  | [] => ([], false)
  | t :: ts =>
    if serves i t then ([(i, t)], true)
    else
      let r := probeSlots serves i ts
      ((i, t) :: r.1, r.2)

/-- The template slots of the source's `patterns` array. -/
def probeTemplateSlots : List Nat := [0, 1, 2, 3, 4, 5]

/-- Safety ceiling (`const maxPages = 500`). -/
def probeMaxPages : Nat := 500

/-- The outer `while (pageNum <= maxPages)` loop; `fuel` dominates the
iteration count so the recursion is structural. -/
def probeLoop (serves : Nat → Nat → Bool) : Nat → Nat → ProbeResult
  | 0, _ => ⟨[], []⟩
  | fuel + 1, pageNum =>
    if pageNum > probeMaxPages then ⟨[], []⟩
    else
      let (att, found) := probeSlots serves pageNum probeTemplateSlots
      if found then
        let r := probeLoop serves fuel (pageNum + 1)
        ⟨pageNum :: r.pages, att ++ r.attempts⟩
      else ⟨[], att⟩

/-- `downloadBookPages`: `pages` lists the indices whose image was
downloaded (`downloadedPages` in the source), `attempts` every probe
fetch that was issued. -/
def downloadBookPages (serves : Nat → Nat → Bool) : ProbeResult :=
  probeLoop serves (probeMaxPages + 1) 1

/-! ## `downloadAssetsWithConcurrency` (source lines 375–418)

Single-threaded cooperative concurrency: the loop admits queued URLs
into the in-flight set up to `CONFIG.concurrentDownloads`, skipping
URLs already admitted (`downloaded.has`), and on each completion
appends the completed CSS file's newly discovered, not-yet-admitted
assets to the queue.  JS `Set`s are embedded as insertion-ordered
duplicate-free lists.  `discover u` is the `additionalAssets` list the
completion of `u` yields (already filtered of `null`s and of
already-admitted URLs at push time, lines 394–400).  The label on each
step records the event, so traces expose every admission. -/

structure SchedState where
  queue : List String
  inProgress : List String
  downloaded : List String
  results : List String
  deriving DecidableEq

/-- Initial state (lines 376–380): queue seeded with the merged asset
list, everything else empty. -/
def schedInit (assets : List String) : SchedState :=
  ⟨assets, [], [], []⟩

inductive SchedEvent where
  | adm (u : String)
  | skipDup (u : String)
  | complete (u : String)
  deriving DecidableEq

/-- One scheduler step.  `adm` models the admission at lines 385–404 for a fresh URL
(guarded by the concurrency cap and the `downloaded` check), `skipDup`
the `continue` for an already-admitted URL, `complete` the resolution
of an in-flight task: its promise is removed, newly discovered assets
not yet admitted are pushed on the back of the queue, the result is
recorded. -/
inductive SchedStep (K : Nat) (discover : String → List String) :
    SchedState → SchedEvent → SchedState → Prop
  | adm (s : SchedState) (u : String) (rest : List String)
      (hq : s.queue = u :: rest)
      (hcap : s.inProgress.length < K)
      (hnew : u ∉ s.downloaded) :
      SchedStep K discover s (.adm u)
        ⟨rest, s.inProgress ++ [u], s.downloaded ++ [u], s.results⟩
  | skipDup (s : SchedState) (u : String) (rest : List String)
      (hq : s.queue = u :: rest)
      (hdup : u ∈ s.downloaded) :
      SchedStep K discover s (.skipDup u)
        ⟨rest, s.inProgress, s.downloaded, s.results⟩
  | complete (s : SchedState) (u : String)
      (hin : u ∈ s.inProgress) :
      SchedStep K discover s (.complete u)
        ⟨s.queue ++ (discover u).filter (fun a => a ∉ s.downloaded),
         s.inProgress.erase u, s.downloaded, s.results ++ [u]⟩

/-- Trace-indexed reachability for the scheduler loop. -/
inductive SchedReaches (K : Nat) (discover : String → List String) :
    SchedState → List SchedEvent → SchedState → Prop
  | refl (s : SchedState) : SchedReaches K discover s [] s
  | step {s s1 s2 : SchedState} {e : SchedEvent} {t : List SchedEvent}
      (h1 : SchedStep K discover s e s1)
      (h2 : SchedReaches K discover s1 t s2) :
      SchedReaches K discover s (e :: t) s2

/-! ## A small backtracking regex engine

The extractors and rewriters scan with JS regexes (`/.../gi`).  The
engine below reproduces JS backtracking semantics for the constructs
those patterns use: literals, character classes, alternation (left
priority), greedy `*`/`+`/`?` and a single capture group, all
case-insensitive (`/i`); `exec` with `/g` is repeated
leftmost-priority matching.  Matching works on the original characters
(captures keep their case) and compares lower-cased. -/

inductive Re where
  | eps
  | ch (c : Char)
  | cls (neg : Bool) (cs : List Char)
  | cat (a b : Re)
  | alt (a b : Re)
  | star (a : Re)
  | grp (a : Re)

/-- Merge captures from two sequenced sub-matches (the patterns contain
one group, so at most one side captures). -/
def capMerge : Option (List Char) → Option (List Char) → Option (List Char)
  | some c, _ => some c
  | none, c => c

/-- Greedy iteration of a sub-matcher: longest first, zero-progress
iterations cut off (none of the embedded patterns can loop on an empty
match, this only bounds the recursion). -/
def starLoop (step : List Char → List (List Char × Option (List Char))) :
    Nat → List Char → List (List Char × Option (List Char))
  | 0, l => [(l, none)]
  | fuel + 1, l =>
    ((step l).flatMap (fun r =>
      if r.1.length = l.length then []
      else (starLoop step fuel r.1).map (fun r2 => (r2.1, capMerge r.2 r2.2)))) ++ [(l, none)]

/-- All ways `re` can match a leading part of `l`, in JS backtracking
priority order; each result is the remaining suffix and the capture. -/
def reRuns : Re → List Char → List (List Char × Option (List Char))
  | .eps, l => [(l, none)]
  | .ch c, l =>
    match l with
    | [] => []
    | x :: xs => if lowerChar x = lowerChar c then [(xs, none)] else []
  | .cls neg cs, l =>
    match l with
    | [] => []
    | x :: xs =>
      let mem := cs.contains (lowerChar x)
      if (if neg then !mem else mem) then [(xs, none)] else []
  | .cat a b, l =>
    (reRuns a l).flatMap (fun r =>
      (reRuns b r.1).map (fun r2 => (r2.1, capMerge r.2 r2.2)))
  | .alt a b, l => reRuns a l ++ reRuns b l
  | .star a, l => starLoop (reRuns a) (l.length + 1) l
  | .grp a, l =>
    (reRuns a l).map (fun r => (r.1, some (l.take (l.length - r.1.length))))

/-- Repeated `regex.exec` scanning (the `while ((match = re.exec(s)))`
loops): at each position take the priority match if any, record group 1
and continue after the match; otherwise advance one character. -/
def scanAll (re : Re) : Nat → List Char → List (List Char)
  | 0, _ => []
  | fuel + 1, l =>
    match reRuns re l with
    | (rest, cap) :: _ =>
      if rest.length = l.length then
        cap.getD [] ::
          (match l with
           | [] => []
           | _ :: xs => scanAll re fuel xs)
      else cap.getD [] :: scanAll re fuel rest
    | [] =>
      match l with
      | [] => []
      | _ :: xs => scanAll re fuel xs

/-- The group-1 captures of every match of `re` in `s`, in order. -/
def reCaptures (re : Re) (s : String) : List String :=
  (scanAll re (s.data.length + 1) s.data).map (fun l => ⟨l⟩)

/-- Literal string (each character matched case-insensitively). -/
def rlit (s : String) : Re :=
  s.data.foldr (fun c r => Re.cat (Re.ch c) r) Re.eps

def anyOf (cs : List Char) : Re := Re.cls false cs

def noneOf (cs : List Char) : Re := Re.cls true cs

def ropt (a : Re) : Re := Re.alt a Re.eps

def rplus (a : Re) : Re := Re.cat a (Re.star a)

/-- `(?:a|b|...)`, left priority as written. -/
def altList : List Re → Re
  | [] => Re.cls false []
  | [a] => a
  | a :: b :: rest => Re.alt a (altList (b :: rest))

def catList : List Re → Re
  | [] => Re.eps
  | a :: rest => Re.cat a (catList rest)

/-- `["']`. -/
def quoteCls : List Char := ['"', '\'']

/-- `[^"')]`'s excluded characters. -/
def urlStopCls : List Char := ['"', '\'', ')']

/-- ASCII part of JS `\s` (the `@import` pattern; the source documents
never hinge on the unicode space classes). -/
def wsCls : List Char := [' ', '\t', '\n', '\r', '\x0b', '\x0c']

/-- `(?:ext1|ext2|...)` from extension spellings. -/
def extAlt (exts : List String) : Re :=
  altList (exts.map rlit)

/-- `/<link[^>]+href=["']([^"']+\.css[^"']*)["'][^>]*>/gi` (line 157). -/
def cssLinkRe : Re :=
  catList [rlit "<link", rplus (noneOf ['>']), rlit "href=", anyOf quoteCls,
    Re.grp (catList [rplus (noneOf quoteCls), rlit ".css", Re.star (noneOf quoteCls)]),
    anyOf quoteCls, Re.star (noneOf ['>']), rlit ">"]

/-- `/<script[^>]+src=["']([^"']+\.js[^"']*)["'][^>]*>/gi` (line 164). -/
def scriptRe : Re :=
  catList [rlit "<script", rplus (noneOf ['>']), rlit "src=", anyOf quoteCls,
    Re.grp (catList [rplus (noneOf quoteCls), rlit ".js", Re.star (noneOf quoteCls)]),
    anyOf quoteCls, Re.star (noneOf ['>']), rlit ">"]

/-- `/(?:src|href|data-src|data-original)=["']([^"']+\.(?:png|jpg|jpeg|gif|svg|webp|ico)[^"']*)["']/gi`
(line 170). -/
def imgRe : Re :=
  catList [altList [rlit "src", rlit "href", rlit "data-src", rlit "data-original"],
    rlit "=", anyOf quoteCls,
    Re.grp (catList [rplus (noneOf quoteCls), rlit ".",
      extAlt ["png", "jpg", "jpeg", "gif", "svg", "webp", "ico"],
      Re.star (noneOf quoteCls)]),
    anyOf quoteCls]

/-- `/url\(["']?([^"')]+\.(?:png|jpg|jpeg|gif|svg|webp))["']?\)/gi` (line 176). -/
def bgRe : Re :=
  catList [rlit "url(", ropt (anyOf quoteCls),
    Re.grp (catList [rplus (noneOf urlStopCls), rlit ".",
      extAlt ["png", "jpg", "jpeg", "gif", "svg", "webp"]]),
    ropt (anyOf quoteCls), rlit ")"]

/-- `/url\(["']?([^"')]+\.(?:woff2?|ttf|otf|eot))["']?\)/gi` (line 182). -/
def fontRe : Re :=
  catList [rlit "url(", ropt (anyOf quoteCls),
    Re.grp (catList [rplus (noneOf urlStopCls), rlit ".",
      altList [catList [rlit "woff", ropt (Re.ch '2')], rlit "ttf", rlit "otf", rlit "eot"]]),
    ropt (anyOf quoteCls), rlit ")"]

/-- `/["']([^"']+\.json[^"']*)["']/gi` (line 188) and its `.xml`, `.swf`
siblings and the audio/video variants. -/
def quotedExtRe (ext : Re) : Re :=
  catList [anyOf quoteCls,
    Re.grp (catList [rplus (noneOf quoteCls), rlit ".", ext, Re.star (noneOf quoteCls)]),
    anyOf quoteCls]

def jsonLitRe : Re := quotedExtRe (rlit "json")

def xmlRe : Re := quotedExtRe (rlit "xml")

def swfRe : Re := quotedExtRe (rlit "swf")

def audioRe : Re := quotedExtRe (extAlt ["mp3", "wav", "ogg", "m4a"])

def videoRe : Re := quotedExtRe (extAlt ["mp4", "webm", "ogv"])

/-- `/url\(["']?([^"')]+)["']?\)/gi` of `extractCssAssets` (line 229). -/
def cssUrlRe : Re :=
  catList [rlit "url(", ropt (anyOf quoteCls),
    Re.grp (rplus (noneOf urlStopCls)),
    ropt (anyOf quoteCls), rlit ")"]

/-- `/@import\s+["']([^"']+)["']/gi` (line 240). -/
def importRe : Re :=
  catList [rlit "@import", rplus (anyOf wsCls), anyOf quoteCls,
    Re.grp (rplus (noneOf quoteCls)), anyOf quoteCls]

/-! ## `extractAssets` / `extractCssAssets` (source lines 153–246)

The source accumulates into a JS `Set` (insertion-ordered,
duplicate-free) and returns `Array.from(set)`; note that it inserts the
raw results of `resolveUrl`, which can be `null`. -/

/-- `Set.prototype.add` on an insertion-ordered duplicate-free list. -/
def setAdd (s : List (Option String)) (x : Option String) : List (Option String) :=
  if x ∈ s then s else s ++ [x]

/-- Add every element in order. -/
def setAddAll (s : List (Option String)) (xs : List (Option String)) : List (Option String) :=
  xs.foldl setAdd s

/-- The condition on `.json` matches (line 190). -/
def jsonMatchCond (v : String) : Bool :=
  strIncludes v "/" || strIncludes v "config" || strIncludes v "book"

/-- `extractAssets(html, baseUrl)`: run the nine scans in source order,
inserting `resolveUrl(match[1], baseUrl)` for each match. -/
def extractAssets (html baseUrl : String) : List (Option String) :=
  let g := fun (re : Re) => (reCaptures re html).map (fun v => resolveUrl v baseUrl)
  let s1 := setAddAll [] (g cssLinkRe)
  let s2 := setAddAll s1 (g scriptRe)
  let s3 := setAddAll s2 (g imgRe)
  let s4 := setAddAll s3 (g bgRe)
  let s5 := setAddAll s4 (g fontRe)
  let jsonVals := ((reCaptures jsonLitRe html).filter jsonMatchCond).map
    (fun v => resolveUrl v baseUrl)
  let s6 := setAddAll s5 jsonVals
  let s7 := setAddAll s6 (g xmlRe)
  let s8 := setAddAll s7 (g swfRe)
  let s9 := setAddAll s8 (g audioRe)
  setAddAll s9 (g videoRe)

/-- `extractCssAssets(css, baseUrl)`: `url(...)` references (data URIs
skipped before resolving) then `@import` references. -/
def extractCssAssets (css baseUrl : String) : List (Option String) :=
  let urlVals := ((reCaptures cssUrlRe css).filter
    (fun v => !(strStarts v "data:"))).map (fun v => resolveUrl v baseUrl)
  let s1 := setAddAll [] urlVals
  setAddAll s1 ((reCaptures importRe css).map (fun v => resolveUrl v baseUrl))

/-- `downloadAsset(assetUrl, outputDir, baseUrl, _)` (lines 342–370).
`ok` is the per-attempt fetch outcome oracle, `body` the fetched bytes
as text, `disk` the set of paths existing in the output tree.  Returns
the result object (`none` models `return null` for a falsy local path)
and the number of network attempts performed.  `CONFIG.maxRetries = 3`,
`CONFIG.retryDelay = 1000`. -/
def downloadAsset (ok : Nat → Bool) (body : String) (disk : List String)
    (outputDir assetUrl baseUrl : String) : Option DlResult × Nat :=
  match getLocalPath assetUrl baseUrl with
  | none => (none, 0)
  | some lp =>
    if lp = "" then (none, 0)
    else
      let full := pathJoin outputDir lp
      if full ∈ disk then (some ⟨assetUrl, some lp, .cached, []⟩, 0)
      else
        let attempts := fetchAttemptsModel ok 3
        if (fetchWithRetryModel ok 1000 3).1 then
          if strEnds lp ".css" then
            (some ⟨assetUrl, some lp, .downloaded, extractCssAssets body assetUrl⟩, attempts)
          else (some ⟨assetUrl, some lp, .downloaded, []⟩, attempts)
        else (some ⟨assetUrl, none, .failed, []⟩, attempts)

/-! ## JSON model (`rewriteJsonUrls`, source lines 595–631)

`JSON.parse` / `JSON.stringify(value, null, 2)` are embedded over a
mutually inductive value type (so every recursion is structural and
kernel-computable).  Numbers whose lexeme is a plain integer are held
exactly; lexemes with a fraction or exponent are kept verbatim in
`numRaw` — IEEE-754 shortest-round-trip printing is not modelled (it
coincides with the lexeme for canonical lexemes).  Object keys follow
the JS property order: array-index keys ascending first, then string
keys in insertion order, duplicate keys keeping the first position with
the last value. -/

mutual
inductive Json where
  | null
  | bool (b : Bool)
  | num (n : Int)
  | numRaw (s : String)
  | str (s : String)
  | arr (xs : JsonList)
  | obj (kvs : JsonKvs)

inductive JsonList where
  | nil
  | cons (hd : Json) (tl : JsonList)

inductive JsonKvs where
  | nil
  | cons (k : String) (v : Json) (tl : JsonKvs)
end

deriving instance DecidableEq for Json

/-- JSON whitespace accepted by `JSON.parse`. -/
def jsonSkipWs (l : List Char) : List Char :=
  l.dropWhile (fun c => c = ' ' ∨ c = '\t' ∨ c = '\n' ∨ c = '\r')

def isDigit (c : Char) : Bool := '0' ≤ c ∧ c ≤ '9'

def digitVal (c : Char) : Nat := c.toNat - '0'.toNat

def digitsToNat (l : List Char) : Nat :=
  l.foldl (fun acc c => acc * 10 + digitVal c) 0

def hexVal (c : Char) : Nat :=
  if isDigit c then digitVal c
  else if 'a' ≤ c ∧ c ≤ 'f' then c.toNat - 'a'.toNat + 10
  else if 'A' ≤ c ∧ c ≤ 'F' then c.toNat - 'A'.toNat + 10
  else 0

def isHexDigit (c : Char) : Bool :=
  isDigit c ∨ ('a' ≤ c ∧ c ≤ 'f') ∨ ('A' ≤ c ∧ c ≤ 'F')

/-- Parse the body of a JSON string after the opening quote; returns the
decoded characters and the input after the closing quote.  Surrogate
pairs in `\u` escapes are combined; lone surrogates are out of scope
(Lean `Char` cannot hold them and no claim touches them). -/
def jsonParseStr : Nat → List Char → Option (List Char × List Char)
  | 0, _ => none
  | _, [] => none
  | fuel + 1, c :: rest =>
    if c = '"' then some ([], rest)
    else if c = '\\' then
      match rest with
      | [] => none
      | e :: rest2 =>
        if e = '"' ∨ e = '\\' ∨ e = '/' then
          (jsonParseStr fuel rest2).map (fun r => (e :: r.1, r.2))
        else if e = 'b' then (jsonParseStr fuel rest2).map (fun r => ('\x08' :: r.1, r.2))
        else if e = 'f' then (jsonParseStr fuel rest2).map (fun r => ('\x0c' :: r.1, r.2))
        else if e = 'n' then (jsonParseStr fuel rest2).map (fun r => ('\n' :: r.1, r.2))
        else if e = 'r' then (jsonParseStr fuel rest2).map (fun r => ('\r' :: r.1, r.2))
        else if e = 't' then (jsonParseStr fuel rest2).map (fun r => ('\t' :: r.1, r.2))
        else if e = 'u' then
          match rest2 with
          | h1 :: h2 :: h3 :: h4 :: rest3 =>
            if isHexDigit h1 ∧ isHexDigit h2 ∧ isHexDigit h3 ∧ isHexDigit h4 then
              let n := ((hexVal h1 * 16 + hexVal h2) * 16 + hexVal h3) * 16 + hexVal h4
              if 0xD800 ≤ n ∧ n ≤ 0xDBFF then
                match rest3 with
                | '\\' :: 'u' :: g1 :: g2 :: g3 :: g4 :: rest4 =>
                  if isHexDigit g1 ∧ isHexDigit g2 ∧ isHexDigit g3 ∧ isHexDigit g4 then
                    let m := ((hexVal g1 * 16 + hexVal g2) * 16 + hexVal g3) * 16 + hexVal g4
                    if 0xDC00 ≤ m ∧ m ≤ 0xDFFF then
                      let cp := 0x10000 + (n - 0xD800) * 0x400 + (m - 0xDC00)
                      (jsonParseStr fuel rest4).map (fun r => (Char.ofNat cp :: r.1, r.2))
                    else none
                  else none
                | _ => none
              else if 0xDC00 ≤ n ∧ n ≤ 0xDFFF then none
              else (jsonParseStr fuel rest3).map (fun r => (Char.ofNat n :: r.1, r.2))
            else none
          | _ => none
        else none
    else if c.toNat < 0x20 then none
    else (jsonParseStr fuel rest).map (fun r => (c :: r.1, r.2))

/-- Parse a JSON number; returns its value and the remaining input. -/
def jsonParseNum (l : List Char) : Option (Json × List Char) :=
  let (neg, l1) := match l with
    | '-' :: rest => (true, rest)
    | _ => (false, l)
  let intPart := l1.takeWhile isDigit
  let l2 := l1.drop intPart.length
  if intPart = [] then none
  else if intPart.length > 1 ∧ intPart.head? = some '0' then none
  else
    let (fracPart, l3) := match l2 with
      | '.' :: rest =>
        let ds := rest.takeWhile isDigit
        (if ds = [] then none else some ds, rest.drop ds.length)
      | _ => (some [], l2)
    match fracPart with
    | none => none
    | some frac =>
      let (expPart, l4) :=
        match l3 with
        | e :: rest =>
          if e = 'e' ∨ e = 'E' then
            let (sgn, rest2) := match rest with
              | s :: r2 => if s = '+' ∨ s = '-' then ([s], r2) else (([] : List Char), rest)
              | [] => ([], rest)
            let ds := rest2.takeWhile isDigit
            (if ds = [] then none else some (e :: sgn ++ ds), rest2.drop ds.length)
          else (some [], l3)
        | [] => (some [], l3)
      match expPart with
      | none => none
      | some ex =>
        if frac = [] ∧ ex = [] then
          let v : Int := Int.ofNat (digitsToNat intPart)
          some (.num (if neg then -v else v), l4)
        else
          let lexeme := (if neg then ['-'] else []) ++ intPart ++
            (if frac = [] then [] else '.' :: frac) ++ ex
          some (.numRaw ⟨lexeme⟩, l4)

/-- Is `k` a canonical array index (the keys JS enumerates first, in
ascending numeric order)? -/
def isArrayIndex (k : String) : Bool :=
  k.data ≠ [] ∧ k.data.all isDigit ∧ (k.data = ['0'] ∨ k.data.head? ≠ some '0') ∧
    digitsToNat k.data < 4294967295

/-- Numeric value of an array-index key. -/
def keyNum (k : String) : Nat := digitsToNat k.data

/-- Insert a parsed key/value with JS object semantics: an existing key
keeps its position and takes the new value; a fresh array-index key goes
before the first non-index key and before larger index keys; a fresh
string key is appended. -/
def insertJsKey (k : String) (v : Json) : JsonKvs → JsonKvs
  | .nil => .cons k v .nil
  | .cons k0 v0 tl =>
    if k0 = k then .cons k0 v tl
    else if isArrayIndex k ∧ (¬ isArrayIndex k0 ∨ keyNum k < keyNum k0) then
      .cons k v (.cons k0 v0 tl)
    else .cons k0 v0 (insertJsKey k v tl)

mutual
/-- Parse one JSON value (leading whitespace already skipped). -/
def jsonParseVal : Nat → List Char → Option (Json × List Char)
  | 0, _ => none
  | fuel + 1, l =>
    match l with
    | [] => none
    | c :: rest =>
      if c = 'n' then
        if isPre ['u','l','l'] rest then some (.null, rest.drop 3) else none
      else if c = 't' then
        if isPre ['r','u','e'] rest then some (.bool true, rest.drop 3) else none
      else if c = 'f' then
        if isPre ['a','l','s','e'] rest then some (.bool false, rest.drop 4) else none
      else if c = '"' then
        (jsonParseStr (rest.length + 1) rest).map (fun r => (.str ⟨r.1⟩, r.2))
      else if c = '-' ∨ isDigit c then jsonParseNum l
      else if c = '[' then
        match jsonSkipWs rest with
        | ']' :: rest2 => some (.arr .nil, rest2)
        | l2 => (jsonParseItems fuel l2).map (fun r => (.arr r.1, r.2))
      else if c = '\x7b' then
        match jsonSkipWs rest with
        | '\x7d' :: rest2 => some (.obj .nil, rest2)
        | l2 => (jsonParseEntries fuel l2).map
            (fun r => (.obj (r.1.foldl (fun o kv => insertJsKey kv.1 kv.2 o) .nil), r.2))
      else none

/-- Parse `value (, value)* ]` of a non-empty array. -/
def jsonParseItems : Nat → List Char → Option (JsonList × List Char)
  | 0, _ => none
  | fuel + 1, l =>
    match jsonParseVal fuel (jsonSkipWs l) with
    | none => none
    | some (v, rest) =>
      match jsonSkipWs rest with
      | ',' :: rest2 =>
        (jsonParseItems fuel rest2).map (fun r => (.cons v r.1, r.2))
      | ']' :: rest2 => some (.cons v .nil, rest2)
      | _ => none

/-- Parse `"k": value (, "k": value)* }` of a non-empty object, as the
raw ordered entry sequence (duplicates kept; they are folded with
`insertJsKey` in textual order when the object value is built). -/
def jsonParseEntries : Nat → List Char → Option (List (String × Json) × List Char)
  | 0, _ => none
  | fuel + 1, l =>
    match jsonSkipWs l with
    | '"' :: rest =>
      match jsonParseStr (rest.length + 1) rest with
      | none => none
      | some (k, rest2) =>
        match jsonSkipWs rest2 with
        | ':' :: rest3 =>
          match jsonParseVal fuel (jsonSkipWs rest3) with
          | none => none
          | some (v, rest4) =>
            match jsonSkipWs rest4 with
            | ',' :: rest5 =>
              (jsonParseEntries fuel rest5).map
                (fun r => ((⟨k⟩, v) :: r.1, r.2))
            | '\x7d' :: rest5 => some ([(⟨k⟩, v)], rest5)
            | _ => none
        | _ => none
    | _ => none
end

/-- `JSON.parse(content)`: `none` models the exception. -/
def jsonParse (content : String) : Option Json :=
  match jsonParseVal (2 * content.data.length + 8) (jsonSkipWs content.data) with
  | none => none
  | some (j, rest) => if jsonSkipWs rest = [] then some j else none

/-- Lower-case hex digit (as `JSON.stringify` emits in `\u` escapes). -/
def hexDigit (n : Nat) : Char :=
  if n < 10 then Char.ofNat ('0'.toNat + n) else Char.ofNat ('a'.toNat + n - 10)

/-- The escaped, quoted form of a string (`JSON.stringify` of a string
value or key). -/
def jsonQuote (s : String) : String :=
  ⟨'"' :: s.data.flatMap (fun c =>
    if c = '"' then ['\\', '"']
    else if c = '\\' then ['\\', '\\']
    else if c = '\x08' then ['\\', 'b']
    else if c = '\x0c' then ['\\', 'f']
    else if c = '\n' then ['\\', 'n']
    else if c = '\r' then ['\\', 'r']
    else if c = '\t' then ['\\', 't']
    else if c.toNat < 0x20 then
      ['\\', 'u', '0', '0', hexDigit (c.toNat / 16), hexDigit (c.toNat % 16)]
    else [c]) ++ ['"']⟩

mutual
/-- `JSON.stringify(j, null, 2)` at nesting indentation `ind`. -/
def jsonRender (ind : String) : Json → String
  | .null => "null"
  | .bool b => if b then "true" else "false"
  | .num n => toString n
  | .numRaw s => s
  | .str s => jsonQuote s
  | .arr .nil => "[]"
  | .arr (.cons x tl) =>
    "[\n" ++ jsonRenderItems (ind ++ "  ") (.cons x tl) ++ "\n" ++ ind ++ "]"
  | .obj .nil => "\x7b\x7d"
  | .obj (.cons k v tl) =>
    "\x7b\n" ++ jsonRenderEntries (ind ++ "  ") (.cons k v tl) ++ "\n" ++ ind ++ "\x7d"

/-- Comma-separated, indented array items (of a non-empty array). -/
def jsonRenderItems (ind : String) : JsonList → String
  | .nil => ""
  | .cons x .nil => ind ++ jsonRender ind x
  | .cons x (.cons y tl) =>
    ind ++ jsonRender ind x ++ ",\n" ++ jsonRenderItems ind (.cons y tl)

/-- Comma-separated, indented object entries (of a non-empty object). -/
def jsonRenderEntries (ind : String) : JsonKvs → String
  | .nil => ""
  | .cons k v .nil => ind ++ jsonQuote k ++ ": " ++ jsonRender ind v
  | .cons k v (.cons k2 v2 tl) =>
    ind ++ jsonQuote k ++ ": " ++ jsonRender ind v ++ ",\n" ++
      jsonRenderEntries ind (.cons k2 v2 tl)
end

/-- `JSON.stringify(j, null, 2)`. -/
def jsonStringify2 (j : Json) : String :=
  jsonRender "" j

/-- The `rewriteValue` closure (lines 598–611) on a string value: absolute
http(s) URLs are replaced by `getLocalPath(value, bookInfo.baseUrl) ||
value` (note `||`: a `null` or empty local path keeps the value); the
relative-asset branch and the fall-through both return the value. -/
def jsonRewriteStr (bookBase s : String) : String :=
  if strStarts s "http://" ∨ strStarts s "https://" then
    match getLocalPath s bookBase with
    | some lp => if lp = "" then s else lp
    | none => s
  else s

mutual
/-- The `rewriteObject` closure (lines 613–624): map over arrays and
object values, rewrite leaf values. -/
def jsonRewriteObject (bookBase : String) : Json → Json
  | .arr xs => .arr (jsonRewriteList bookBase xs)
  | .obj kvs => .obj (jsonRewriteKvs bookBase kvs)
  | .str s => .str (jsonRewriteStr bookBase s)
  | x => x

def jsonRewriteList (bookBase : String) : JsonList → JsonList
  | .nil => .nil
  | .cons x tl => .cons (jsonRewriteObject bookBase x) (jsonRewriteList bookBase tl)

def jsonRewriteKvs (bookBase : String) : JsonKvs → JsonKvs
  | .nil => .nil
  | .cons k v tl => .cons k (jsonRewriteObject bookBase v) (jsonRewriteKvs bookBase tl)
end

/-- `rewriteJsonUrls(content, baseUrl, bookInfo)` (lines 595–631): parse,
recursively rewrite, re-serialize with two-space indentation; on a parse
failure return the content unchanged.  (`baseUrl` is accepted and unused
by the source as well; only `bookInfo.baseUrl` is consulted.) -/
def rewriteJsonUrls (content baseUrl bookBase : String) : String :=
  match jsonParse content with
  | some j => jsonStringify2 (jsonRewriteObject bookBase j)
  | none => content

/-! ## Concrete instances used by witnesses and counterexamples -/

/-- A book base URL of the shape `parseFlipHTML5Url` always produces
(`<protocol>//<host>/<bookId1>/<bookId2>/`, line 71). -/
def fbBase : String := "https://fliphtml5.com/abc/def/"

/-- A one-reference document for the rewriter: an `<img>` whose `src` is
a same-origin, already-mirrored asset of the book. -/
def docOneImg : List HtmlChunk :=
  [.lit "<img ", .attr "src" '"' "https://fliphtml5.com/abc/def/files/1.jpg", .lit ">"]

/-- An origin that serves exactly page 1 (first template) and nothing
else: the prober downloads one page and stops at index 2. -/
def servesPageOne : Nat → Nat → Bool :=
  fun i t => decide (i = 1 ∧ t = 0)

/-- An origin that serves pages 1 and 2 through the first template. -/
def servesTwoPages : Nat → Nat → Bool :=
  fun i t => decide (i ≤ 2 ∧ t = 0)

/-- A fetch oracle whose first two attempts fail and third succeeds. -/
def okThird : Nat → Bool :=
  fun i => decide (i = 2)

/-! ## Generic helper lemmas -/

theorem stringDataInj {a b : String} (h : a.data = b.data) : a = b := by
  cases a
  cases b
  exact congrArg String.mk h

theorem listMapFixed {α : Type} (f : α → α) :
    ∀ l : List α, l.map f = l ↔ ∀ c ∈ l, f c = c := by
  intro l
  induction l with
  | nil => simp
  | cons x xs ih =>
    simp only [List.map_cons, List.cons.injEq, List.mem_cons]
    constructor
    · rintro ⟨hx, hxs⟩ c hc
      rcases hc with rfl | hc
      · exact hx
      · exact (ih.mp hxs) c hc
    · intro h
      exact ⟨h x (Or.inl rfl), ih.mpr (fun c hc => h c (Or.inr hc))⟩

/-! ## C7 — HTML rewriting is fail-open per match -/

/-- C7: in the HTML pass, a matched attribute value whose resolution or
classification fails is left untouched, and only values for which both
steps succeed are ever substituted: substitution happens exactly when
both steps succeed with a non-empty (truthy) local path — the falsy
guard of line 319 also keeps a match whose local path is empty — and
the attribute name and quotes around a match, as well as all non-match
text, are always re-emitted verbatim. -/
theorem html_rewrite_fail_open (baseUrl v : String) :
    (resolveUrl v baseUrl = none → rewriteHtmlValue baseUrl v = v) ∧
    (∀ a, resolveUrl v baseUrl = some a → getLocalPath a baseUrl = none →
      rewriteHtmlValue baseUrl v = v) ∧
    (∀ a, resolveUrl v baseUrl = some a → getLocalPath a baseUrl = some "" →
      rewriteHtmlValue baseUrl v = v) ∧
    (∀ a lp, resolveUrl v baseUrl = some a → getLocalPath a baseUrl = some lp → lp ≠ "" →
      rewriteHtmlValue baseUrl v = lp) ∧
    (rewriteHtmlValue baseUrl v ≠ v →
      ∃ a lp, resolveUrl v baseUrl = some a ∧ getLocalPath a baseUrl = some lp ∧
        lp ≠ "" ∧ rewriteHtmlValue baseUrl v = lp) ∧
    (∀ n q, rewriteHtmlChunk baseUrl (.attr n q v) = .attr n q (rewriteHtmlValue baseUrl v)) ∧
    (∀ s, rewriteHtmlChunk baseUrl (.lit s) = .lit s) := by
  refine ⟨?_, ?_, ?_, ?_, ?_, ?_, ?_⟩
  · intro h
    simp [rewriteHtmlValue, h]
  · intro a h1 h2
    simp [rewriteHtmlValue, h1, h2]
  · intro a h1 h2
    simp [rewriteHtmlValue, h1, h2]
  · intro a lp h1 h2 h3
    simp [rewriteHtmlValue, h1, h2, h3]
  · intro hne
    cases hres : resolveUrl v baseUrl with
    | none => exact absurd (by simp [rewriteHtmlValue, hres]) hne
    | some a =>
      cases hlp : getLocalPath a baseUrl with
      | none => exact absurd (by simp [rewriteHtmlValue, hres, hlp]) hne
      | some lp =>
        by_cases hz : lp = ""
        · subst hz
          exact absurd (by simp [rewriteHtmlValue, hres, hlp]) hne
        · exact ⟨a, lp, rfl, hlp, hz, by simp [rewriteHtmlValue, hres, hlp, hz]⟩
  · intro n q
    rfl
  · intro s
    rfl

/-- Witness for C7 at two concrete references: a fragment anchor
(`resolveUrl` returns `null` on it) passes through unchanged, and so
does a root reference `/`, whose local path classifies to the empty
string and is kept by the falsy guard. -/
theorem html_rewrite_fail_open_witness :
    rewriteHtmlValue fbBase "#frag" = "#frag" ∧ rewriteHtmlValue fbBase "/" = "/" :=
  ⟨(html_rewrite_fail_open fbBase "#frag").1 (by decide),
   (html_rewrite_fail_open fbBase "/").2.2.1 "https://fliphtml5.com/"
     (by decide) (by decide)⟩

/-! ## C8 — JSON pass is byte-for-byte on unparseable input -/

/-- C8: for content that does not parse as JSON, `rewriteJsonUrls`
returns the content unchanged (the embedding is a total function, so it
also cannot throw — the source catches the `JSON.parse` exception). -/
theorem rewriteJsonUrls_unparseable (content baseUrl bookBase : String)
    (h : jsonParse content = none) :
    rewriteJsonUrls content baseUrl bookBase = content := by
  simp [rewriteJsonUrls, h]

/-- Witness for C8: a malformed object literal is passed through. -/
theorem rewriteJsonUrls_unparseable_witness :
    jsonParse "\x7boops" = none ∧
      rewriteJsonUrls "\x7boops" fbBase fbBase = "\x7boops" :=
  ⟨by decide, rewriteJsonUrls_unparseable "\x7boops" fbBase fbBase (by decide)⟩

/-! ## C10 — JSON pass re-serializes every parseable file -/

/-- C10 (amended): for every file that parses, `rewriteJsonUrls` returns
the rewritten structure re-serialized by `JSON.stringify(·, null, 2)`;
hence the output equals the input exactly when the input already is
that canonical two-space serialization of the rewritten structure. -/
theorem rewriteJsonUrls_reserializes (content baseUrl bookBase : String) (j : Json)
    (h : jsonParse content = some j) :
    rewriteJsonUrls content baseUrl bookBase = jsonStringify2 (jsonRewriteObject bookBase j) ∧
      (rewriteJsonUrls content baseUrl bookBase = content ↔
        jsonStringify2 (jsonRewriteObject bookBase j) = content) := by
  have h1 : rewriteJsonUrls content baseUrl bookBase =
      jsonStringify2 (jsonRewriteObject bookBase j) := by
    simp [rewriteJsonUrls, h]
  exact ⟨h1, by rw [h1]⟩

/-- Witness for C10: `\x7b"a":1\x7d` parses, contains no absolute
http(s) URL, and is reformatted (whitespace normalized) rather than
preserved byte-for-byte. -/
theorem rewriteJsonUrls_reserializes_witness :
    rewriteJsonUrls "\x7b\"a\":1\x7d" fbBase fbBase =
        jsonStringify2 (jsonRewriteObject fbBase (.obj (.cons "a" (.num 1) .nil))) ∧
      rewriteJsonUrls "\x7b\"a\":1\x7d" fbBase fbBase ≠ "\x7b\"a\":1\x7d" :=
  ⟨(rewriteJsonUrls_reserializes "\x7b\"a\":1\x7d" fbBase fbBase
      (.obj (.cons "a" (.num 1) .nil)) (by decide)).1,
   by decide⟩

/-- Counterexample to C10 as stated: byte-for-byte preservation is not
exclusive to unparseable files.  The content `1` parses as JSON, no
value in it is rewritten, and the pass still returns it unchanged,
because it already is its own `JSON.stringify(·, null, 2)` form. -/
theorem rewriteJsonUrls_preserves_canonical_parseable :
    jsonParse "1" = some (.num 1) ∧ rewriteJsonUrls "1" fbBase fbBase = "1" := by
  constructor
  · decide
  · decide

/-! ## C2 — the rewrite pass is not idempotent -/

/-- C2 (amended): re-applying a rewrite pass (HTML or CSS mode) is a
no-op exactly when every value produced by the first pass is a fixed
point of the per-match mapping; under the mirrored site's base URL,
whose path is `/<bookId1>/<bookId2>/`, an already-rewritten relative
reference is not such a fixed point — it is re-resolved against the
base and has the base directory prepended again. -/
theorem rewrite_pass_idempotency_characterization :
    (∀ baseUrl doc, rewriteUrlsHtml baseUrl (rewriteUrlsHtml baseUrl doc) =
        rewriteUrlsHtml baseUrl doc ↔
        ∀ c ∈ rewriteUrlsHtml baseUrl doc, rewriteHtmlChunk baseUrl c = c) ∧
    (∀ baseUrl doc, rewriteUrlsCss baseUrl (rewriteUrlsCss baseUrl doc) =
        rewriteUrlsCss baseUrl doc ↔
        ∀ c ∈ rewriteUrlsCss baseUrl doc, rewriteCssChunk baseUrl c = c) ∧
    rewriteHtmlValue fbBase "abc/def/files/1.jpg" = "abc/def/abc/def/files/1.jpg" ∧
    rewriteCssValue fbBase "abc/def/files/1.jpg" = "abc/def/abc/def/files/1.jpg" := by
  refine ⟨?_, ?_, by decide, by decide⟩
  · intro baseUrl doc
    exact listMapFixed (rewriteHtmlChunk baseUrl) (rewriteUrlsHtml baseUrl doc)
  · intro baseUrl doc
    exact listMapFixed (rewriteCssChunk baseUrl) (rewriteUrlsCss baseUrl doc)

/-- Counterexample to C2 as stated: a document whose only reference is
an already-mirrored same-origin asset is rewritten to a relative path
by the first pass, and the second pass rewrites that path again
(prepending the base directory `abc/def/`), so re-application is not a
no-op. -/
theorem rewrite_pass_not_idempotent :
    rewriteUrlsHtml fbBase docOneImg =
        [.lit "<img ", .attr "src" '"' "abc/def/files/1.jpg", .lit ">"] ∧
      rewriteUrlsHtml fbBase (rewriteUrlsHtml fbBase docOneImg) ≠
        rewriteUrlsHtml fbBase docOneImg := by
  constructor
  · decide
  · decide

/-! ## C6 — the retry backoff is linear, not exponential -/

theorem mapRangeShift (f : Nat → Nat) (s : Nat) :
    (List.range (s + 1)).map f = f 0 :: (List.range s).map (fun j => f (j + 1)) := by
  rw [List.range_succ_eq_map, List.map_cons, List.map_map]
  rfl

theorem fetchRetryGo_success (ok : Nat → Bool) (d : Nat) :
    ∀ s rem i, s < rem → (∀ k, k < s → ok (i + k) = false) → ok (i + s) = true →
      fetchRetryGo ok d rem i = (true, (List.range s).map (fun j => d * (i + j + 1))) := by
  intro s
  induction s with
  | zero =>
    intro rem i hs _ hok
    match rem, hs with
    | rem + 1, _ =>
      simp only [Nat.add_zero] at hok
      simp [fetchRetryGo, hok]
  | succ s ih =>
    intro rem i hs hfail hok
    match rem, hs with
    | rem + 1, hs =>
      have h0 : ok i = false := by
        have := hfail 0 (Nat.succ_pos s)
        simpa using this
      have hrem : s < rem := Nat.lt_of_succ_lt_succ hs
      have hrem0 : rem ≠ 0 := by omega
      have hrec := ih rem (i + 1) hrem
        (fun k hk => by
          have := hfail (k + 1) (Nat.succ_lt_succ hk)
          simpa [Nat.add_assoc, Nat.add_comm 1 k] using this)
        (by
          have h : i + 1 + s = i + (s + 1) := by omega
          rw [h]
          exact hok)
      simp only [fetchRetryGo, h0, Bool.false_eq_true, if_false, hrem0, ite_false, hrec]
      refine congrArg (Prod.mk true) ?_
      rw [mapRangeShift]
      simp only [List.cons.injEq]
      refine ⟨by ring_nf, List.map_congr_left ?_⟩
      intro j _
      ring

theorem fetchRetryGo_allfail (ok : Nat → Bool) (d : Nat) :
    ∀ rem i, 1 ≤ rem → (∀ k, k < rem → ok (i + k) = false) →
      fetchRetryGo ok d rem i = (false, (List.range (rem - 1)).map (fun j => d * (i + j + 1))) := by
  intro rem
  induction rem with
  | zero => intro i h; omega
  | succ rem ih =>
    intro i _ hfail
    have h0 : ok i = false := by simpa using hfail 0 (Nat.succ_pos rem)
    by_cases hz : rem = 0
    · subst hz
      simp [fetchRetryGo, h0]
    · have hrec := ih (i + 1) (Nat.one_le_iff_ne_zero.mpr hz)
        (fun k hk => by
          have := hfail (k + 1) (Nat.succ_lt_succ hk)
          simpa [Nat.add_assoc, Nat.add_comm 1 k] using this)
      simp only [fetchRetryGo, h0, Bool.false_eq_true, if_false, hz, ite_false, hrec]
      refine congrArg (Prod.mk false) ?_
      match rem, hz with
      | rem + 1, _ =>
        simp only [Nat.succ_sub_one, Nat.add_sub_cancel]
        rw [mapRangeShift]
        simp only [List.cons.injEq]
        refine ⟨by ring_nf, List.map_congr_left ?_⟩
        intro j _
        ring

/-- C6 (amended): `fetchWithRetry` retries a failed fetch up to the
bounded retry limit (`retries` attempts in total), and the delay
inserted after failed attempt `i` is `retryDelay * (i + 1)` — the
backoff grows linearly (arithmetically) with the attempt number, not
exponentially.  The first conjunct is the retry-until-success case
(attempt `s` is the first to succeed), the second the exhaustion case. -/
theorem fetchWithRetry_linear_backoff (ok : Nat → Bool) (d retries s : Nat) :
    (s < retries → (∀ k, k < s → ok k = false) → ok s = true →
      fetchWithRetryModel ok d retries =
        (true, (List.range s).map (fun j => d * (j + 1)))) ∧
    (1 ≤ retries → (∀ k, k < retries → ok k = false) →
      fetchWithRetryModel ok d retries =
        (false, (List.range (retries - 1)).map (fun j => d * (j + 1)))) := by
  constructor
  · intro hs hfail hok
    have := fetchRetryGo_success ok d s retries 0 hs
      (fun k hk => by simpa using hfail k hk) (by simpa using hok)
    simpa [fetchWithRetryModel] using this
  · intro hr hfail
    have := fetchRetryGo_allfail ok d retries 0 hr
      (fun k hk => by simpa using hfail k hk)
    simpa [fetchWithRetryModel] using this

/-- Witness for C6 (amended), at the configured `retryDelay = 1000` and
`maxRetries = 3` with a fetch that succeeds on its third attempt: the
inserted delays are 1000 ms then 2000 ms. -/
theorem fetchWithRetry_linear_backoff_witness :
    fetchWithRetryModel okThird 1000 3 = (true, [1000, 2000]) := by
  have h := (fetchWithRetry_linear_backoff okThird 1000 3 2).1
    (by decide) (by decide) (by decide)
  simpa using h

/-- Counterexample to C6 as stated: with four allowed attempts all
failing, the inserted delays are 1000, 2000, 3000 — an arithmetic, not
geometric, progression (a geometric progression would need the middle
term squared to equal the product of its neighbours: 2000² ≠ 1000·3000),
so the delay does not grow exponentially with the attempt number. -/
theorem fetchWithRetry_backoff_not_exponential :
    (fetchWithRetryModel (fun _ => false) 1000 4).2 = [1000, 2000, 3000] ∧
      2000 * 2000 ≠ 1000 * 3000 := by
  constructor
  · decide
  · decide

/-! ## C5 — per-asset caching, but re-runs still fetch -/

/-- C5 (amended): an asset whose classified local path already exists in
the output tree is marked `cached` by `downloadAsset` with zero network
attempts; hence the scheduler performs no asset fetches on an unchanged
re-run.  (The entry-document fetch, the config probing and the
page-image probing consult no disk state, so a full second run is not
fetch-free — see the accompanying counterexample.) -/
theorem downloadAsset_cached (ok : Nat → Bool) (body : String) (disk : List String)
    (outputDir assetUrl baseUrl lp : String)
    (hlp : getLocalPath assetUrl baseUrl = some lp) (hne : lp ≠ "")
    (hdisk : pathJoin outputDir lp ∈ disk) :
    downloadAsset ok body disk outputDir assetUrl baseUrl =
      (some ⟨assetUrl, some lp, .cached, []⟩, 0) := by
  simp [downloadAsset, hlp, hne, hdisk]

/-- Witness for C5 (amended): a page image of the mirror already on disk
is served from cache with no fetch. -/
theorem downloadAsset_cached_witness :
    downloadAsset (fun _ => true) "" ["out/abc/def/files/1.jpg"] "out"
        "https://fliphtml5.com/abc/def/files/1.jpg" fbBase =
      (some ⟨"https://fliphtml5.com/abc/def/files/1.jpg",
        some "abc/def/files/1.jpg", .cached, []⟩, 0) :=
  downloadAsset_cached (fun _ => true) "" ["out/abc/def/files/1.jpg"] "out"
    "https://fliphtml5.com/abc/def/files/1.jpg" fbBase "abc/def/files/1.jpg"
    (by decide) (by decide) (by decide)

/-- Counterexample to C5 as stated: the whole-run consequence (zero
network fetches on a second run) fails, because `downloadBookPages`
(invoked unconditionally by `downloadFlipHTML5Book`, line 772) probes
the page templates without any disk-existence check (lines 445–455
fetch before writing unconditionally): against an origin serving page 1
it issues 7 probe fetches — one hit at index 1 and six misses at index
2 — on every run, including a re-run over a fully populated output
folder.  The model therefore takes no disk parameter at all: its fetch
count is the same whatever is on disk, and it is not zero. -/
theorem downloadBookPages_fetches_on_rerun :
    (downloadBookPages servesPageOne).attempts.length = 7 ∧
      (downloadBookPages servesPageOne).attempts ≠ [] ∧
      (downloadBookPages servesPageOne).pages = [1] := by
  refine ⟨by decide, by decide, by decide⟩

/-! ## C9 — extractors: total, deduplicated, but entries may be null -/

theorem setAdd_nodup (s : List (Option String)) (x : Option String)
    (h : s.Nodup) : (setAdd s x).Nodup := by
  by_cases hx : x ∈ s
  · simpa [setAdd, hx] using h
  · simp only [setAdd, hx, ite_false]
    exact List.Nodup.append h (List.nodup_singleton x) (by simpa using hx)

theorem setAdd_mem (s : List (Option String)) (x y : Option String)
    (h : y ∈ setAdd s x) : y ∈ s ∨ y = x := by
  by_cases hx : x ∈ s
  · simp only [setAdd, hx, ite_true] at h
    exact Or.inl h
  · simp only [setAdd, hx, ite_false, List.mem_append, List.mem_singleton] at h
    exact h

theorem setAddAll_nodup (xs : List (Option String)) :
    ∀ s, s.Nodup → (setAddAll s xs).Nodup := by
  induction xs with
  | nil => intro s h; simpa [setAddAll] using h
  | cons x xs ih =>
    intro s h
    simpa [setAddAll] using ih (setAdd s x) (setAdd_nodup s x h)

theorem setAddAll_mem (xs : List (Option String)) :
    ∀ s y, y ∈ setAddAll s xs → y ∈ s ∨ y ∈ xs := by
  induction xs with
  | nil => intro s y h; exact Or.inl (by simpa [setAddAll] using h)
  | cons x xs ih =>
    intro s y h
    have h2 := ih (setAdd s x) y (by simpa [setAddAll] using h)
    rcases h2 with h2 | h2
    · rcases setAdd_mem s x y h2 with h3 | h3
      · exact Or.inl h3
      · exact Or.inr (by simp [h3])
    · exact Or.inr (List.mem_cons_of_mem x h2)

/-- C9 (amended): each extractor is a total function (never throws) and
returns a duplicate-free list, but its entries are raw `resolveUrl`
results: an absolute URL serialization for each resolvable reference
and `null` for references `resolveUrl` filters out (data URIs, fragment
anchors, malformed references). -/
theorem extractors_nodup_and_resolved (html css baseUrl : String) :
    (extractAssets html baseUrl).Nodup ∧
    (∀ x ∈ extractAssets html baseUrl, ∃ v, x = resolveUrl v baseUrl) ∧
    (∀ x ∈ extractAssets html baseUrl, ∀ s, x = some s → ∃ r, s = urlHref r) ∧
    (extractCssAssets css baseUrl).Nodup ∧
    (∀ x ∈ extractCssAssets css baseUrl, ∃ v, x = resolveUrl v baseUrl) ∧
    (∀ x ∈ extractCssAssets css baseUrl, ∀ s, x = some s → ∃ r, s = urlHref r) := by
  have resHref : ∀ v s, resolveUrl v baseUrl = some s → ∃ r : UrlRec, s = urlHref r := by
    intro v s h
    unfold resolveUrl at h
    by_cases hd : (strStarts v "data:" ∨ strStarts v "#")
    · simp [hd] at h
    · simp only [hd, ite_false] at h
      cases hur : urlResolve v baseUrl with
      | none => rw [hur] at h; simp at h
      | some r =>
        rw [hur] at h
        simp only [Option.map_some', Option.some.injEq] at h
        exact ⟨r, h.symm⟩
  have extMem : ∀ x ∈ extractAssets html baseUrl, ∃ v, x = resolveUrl v baseUrl := by
    intro x hx
    simp only [extractAssets] at hx
    iterate 10
      rcases setAddAll_mem _ _ _ hx with hx | hx <;>
        try (rcases List.mem_map.mp hx with ⟨v, hv, rfl⟩; exact ⟨v, rfl⟩)
    simp at hx
  have cssMem : ∀ x ∈ extractCssAssets css baseUrl, ∃ v, x = resolveUrl v baseUrl := by
    intro x hx
    simp only [extractCssAssets] at hx
    iterate 2
      rcases setAddAll_mem _ _ _ hx with hx | hx <;>
        try (rcases List.mem_map.mp hx with ⟨v, hv, rfl⟩; exact ⟨v, rfl⟩)
    simp at hx
  refine ⟨?_, extMem, ?_, ?_, cssMem, ?_⟩
  · simp only [extractAssets]
    repeat' apply setAddAll_nodup
    exact List.nodup_nil
  · intro x hx s hs
    obtain ⟨v, hv⟩ := extMem x hx
    exact resHref v s (by rw [← hv, hs])
  · simp only [extractCssAssets]
    repeat' apply setAddAll_nodup
    exact List.nodup_nil
  · intro x hx s hs
    obtain ⟨v, hv⟩ := cssMem x hx
    exact resHref v s (by rw [← hv, hs])

/-- Counterexample to C9 as stated: the returned list is not a list of
absolute URL strings — a CSS `url(#a)` reference is matched, filtered
to `null` by `resolveUrl` (fragment anchor), and the `null` itself is
inserted into the result set, exactly as the source's
`assets.add(resolveUrl(assetUrl, baseUrl))` does. -/
theorem extractCssAssets_contains_null :
    extractCssAssets "url(#a)" fbBase = [none] ∧
      none ∈ extractCssAssets "url(#a)" fbBase := by
  refine ⟨by decide, by decide⟩

/-! ## C3 — query-string classification: deterministic, hash-collision-bounded -/

theorem strMkData (s : String) : (⟨s.data⟩ : String) = s := by
  cases s
  rfl

theorem splitSlash_ne_nil : ∀ l : List Char, splitSlash l ≠ [] := by
  intro l
  induction l with
  | nil => simp [splitSlash]
  | cons c cs ih =>
    simp only [splitSlash]
    match h : splitSlash cs with
    | [] => exact absurd h ih
    | s :: rest =>
      by_cases hc : c = '/' <;> simp [hc]

theorem splitSlash_noSlash : ∀ l : List Char, '/' ∉ l → splitSlash l = [l] := by
  intro l
  induction l with
  | nil => intro _; rfl
  | cons c cs ih =>
    intro h
    have hc : c ≠ '/' := fun hc => h (by simp [hc])
    have hcs : '/' ∉ cs := fun hm => h (List.mem_cons_of_mem c hm)
    simp only [splitSlash, ih hcs]
    simp [hc]

theorem splitSlash_append_slash :
    ∀ (a m : List Char), '/' ∉ m → splitSlash (a ++ '/' :: m) = splitSlash a ++ [m] := by
  intro a m hm
  induction a with
  | nil =>
    simp only [List.nil_append, splitSlash, splitSlash_noSlash m hm]
    simp
  | cons c cs ih =>
    simp only [List.cons_append, splitSlash, ih]
    match h : splitSlash cs with
    | [] => exact absurd h (splitSlash_ne_nil cs)
    | s :: rest =>
      rw [h] at ih
      by_cases hc : c = '/' <;> simp [hc, ih]

theorem normGo_snoc (isAbs : Bool) (n : List Char)
    (hn1 : n ≠ []) (hn2 : n ≠ ['.']) (hn3 : n ≠ ['.', '.']) :
    ∀ (segs : List (List Char)) (acc : List (List Char)),
      normGo isAbs acc (segs ++ [n]) = normGo isAbs acc segs ++ [n] := by
  intro segs
  induction segs with
  | nil =>
    intro acc
    simp only [List.nil_append, normGo]
    have h1 : ¬ (n = [] ∨ n = ['.']) := by
      rintro (h | h)
      · exact hn1 h
      · exact hn2 h
    simp [h1, hn3]
  | cons s rest ih =>
    intro acc
    simp only [List.cons_append, normGo]
    by_cases h1 : s = [] ∨ s = ['.']
    · simp [h1, ih]
    · by_cases h2 : s = ['.', '.']
      · by_cases h3 : acc ≠ [] ∧ acc.getLast? ≠ some ['.', '.']
        · simp [h1, h2, h3, ih]
        · rcases Bool.eq_false_or_eq_true isAbs with h4 | h4 <;>
            (subst h4; simp [h1, h2, h3, ih])
      · simp [h1, h2, ih]

theorem joinSegs_snoc :
    ∀ (X : List (List Char)) (n : List Char), X ≠ [] →
      joinSegs (X ++ [n]) = joinSegs X ++ '/' :: n := by
  intro X
  induction X with
  | nil => intro n h; exact absurd rfl h
  | cons x xs ih =>
    intro n _
    match xs with
    | [] => rfl
    | y :: ys =>
      show x ++ '/' :: joinSegs ((y :: ys) ++ [n]) = (x ++ '/' :: joinSegs (y :: ys)) ++ '/' :: n
      rw [ih n (by simp)]
      simp [List.append_assoc]

theorem headAppend {α : Type} (a : List α) (x : List α) (h : a ≠ []) :
    (a ++ x).head? = a.head? := by
  match a with
  | [] => exact absurd rfl h
  | c :: cs => rfl


theorem pathNormalize_snoc_plain (a : List Char) (ha : a ≠ []) :
    ∃ pre : List Char, ∀ m : List Char, m ≠ [] → '/' ∉ m → m ≠ ['.'] → m ≠ ['.', '.'] →
      pathNormalize (a ++ '/' :: m) = pre ++ m := by
  by_cases hA : a.head? = some '/'
  · cases hX : normGo true [] (splitSlash a) with
    | nil =>
      refine ⟨['/'], ?_⟩
      intro m hm1 hm2 hm3 hm4
      simp only [pathNormalize]
      rw [headAppend a ('/' :: m) ha, splitSlash_append_slash a m hm2]
      simp only [hA, decide_True]
      rw [normGo_snoc true m hm1 hm3 hm4, hX]
      rfl
    | cons x xs =>
      refine ⟨'/' :: joinSegs (x :: xs) ++ ['/'], ?_⟩
      intro m hm1 hm2 hm3 hm4
      simp only [pathNormalize]
      rw [headAppend a ('/' :: m) ha, splitSlash_append_slash a m hm2]
      simp only [hA, decide_True]
      rw [normGo_snoc true m hm1 hm3 hm4, hX]
      show '/' :: joinSegs ((x :: xs) ++ [m]) = '/' :: joinSegs (x :: xs) ++ ['/'] ++ m
      rw [joinSegs_snoc (x :: xs) m (by simp)]
      simp [List.append_assoc]
  · cases hX : normGo false [] (splitSlash a) with
    | nil =>
      refine ⟨[], ?_⟩
      intro m hm1 hm2 hm3 hm4
      simp only [pathNormalize]
      rw [headAppend a ('/' :: m) ha, splitSlash_append_slash a m hm2]
      simp only [hA, decide_False]
      rw [normGo_snoc false m hm1 hm3 hm4, hX]
      rfl
    | cons x xs =>
      refine ⟨joinSegs (x :: xs) ++ ['/'], ?_⟩
      intro m hm1 hm2 hm3 hm4
      simp only [pathNormalize]
      rw [headAppend a ('/' :: m) ha, splitSlash_append_slash a m hm2]
      simp only [hA, decide_False]
      rw [normGo_snoc false m hm1 hm3 hm4, hX]
      show joinSegs ((x :: xs) ++ [m]) = joinSegs (x :: xs) ++ ['/'] ++ m
      rw [joinSegs_snoc (x :: xs) m (by simp)]
      simp [List.append_assoc]

theorem pathNormalize_plain (n : List Char)
    (ha : n ≠ []) (hb : '/' ∉ n) (hc : n ≠ ['.']) (hd : n ≠ ['.', '.']) :
    pathNormalize n = n := by
  have hhead : ¬ n.head? = some '/' := by
    cases n with
    | nil => exact absurd rfl ha
    | cons c cs =>
      have hcc : c ≠ '/' := fun h => hb (by rw [h]; exact List.mem_cons_self _ _)
      simp [hcc]
  simp only [pathNormalize, splitSlash_noSlash n hb, hhead, decide_False]
  have hgo : normGo false [] [n] = [n] := by
    simp only [normGo]
    have hor : ¬ (n = [] ∨ n = ['.']) := by
      rintro (h | h)
      · exact ha h
      · exact hc h
    simp [hor, hd]
  rw [hgo]
  rfl

theorem strDataNeNil {n : String} (h : n ≠ "") : n.data ≠ [] := by
  intro hd
  apply h
  rw [← strMkData n, hd]

theorem pathJoin_empty_left (b : String) (hb : b ≠ "") :
    pathJoin "" b = ⟨pathNormalize b.data⟩ := by
  simp [pathJoin, hb]

theorem pathJoin_both (a b : String) (ha : a ≠ "") (hb : b ≠ "") :
    pathJoin a b = ⟨pathNormalize (a.data ++ '/' :: b.data)⟩ := by
  simp [pathJoin, ha, hb]

/-- Joining a plain final segment (no slash, not a dot segment) onto any
directory is injective in that segment. -/
theorem pathJoin_plain_inj (dir n1 n2 : String)
    (h1b : '/' ∉ n1.data) (h1c : n1.data ≠ ['.']) (h1d : n1.data ≠ ['.', '.'])
    (h2b : '/' ∉ n2.data) (h2c : n2.data ≠ ['.']) (h2d : n2.data ≠ ['.', '.'])
    (h1a : n1 ≠ "") (h2a : n2 ≠ "")
    (hne : n1 ≠ n2) : pathJoin dir n1 ≠ pathJoin dir n2 := by
  intro heq
  apply hne
  by_cases hdir : dir = ""
  · subst hdir
    rw [pathJoin_empty_left n1 h1a, pathJoin_empty_left n2 h2a,
      pathNormalize_plain n1.data (strDataNeNil h1a) h1b h1c h1d,
      pathNormalize_plain n2.data (strDataNeNil h2a) h2b h2c h2d,
      strMkData, strMkData] at heq
    exact heq
  · obtain ⟨pre, hpre⟩ := pathNormalize_snoc_plain dir.data (strDataNeNil hdir)
    rw [pathJoin_both dir n1 hdir h1a, pathJoin_both dir n2 hdir h2a,
      hpre n1.data (strDataNeNil h1a) h1b h1c h1d,
      hpre n2.data (strDataNeNil h2a) h2b h2c h2d] at heq
    have hdata : pre ++ n1.data = pre ++ n2.data := congrArg String.data heq
    exact stringDataInj (List.append_cancel_left hdata)

theorem pathBasename_no_slash (p : String) : '/' ∉ (pathBasename p).data := by
  intro h
  simp only [pathBasename] at h
  have h2 := List.mem_reverse.mp h
  have := List.mem_takeWhile_imp h2
  simp at this

theorem pathBasenameExt_no_slash (p e : String) : '/' ∉ (pathBasenameExt p e).data := by
  intro h
  simp only [pathBasenameExt] at h
  split at h
  · exact pathBasename_no_slash p (List.take_subset _ _ h)
  · exact pathBasename_no_slash p h

theorem pathExtname_no_slash (p : String) : '/' ∉ (pathExtname p).data := by
  intro h
  simp only [pathExtname] at h
  split at h
  · simp at h
  · split at h
    · simp at h
    · rcases List.mem_cons.mp h with h3 | h3
      · exact absurd h3 (by decide)
      · have h4 := List.mem_reverse.mp h3
        have h5 := (List.takeWhile_sublist _).subset h4
        exact pathBasename_no_slash p (List.mem_reverse.mp h5)

theorem queryHash_no_slash (s : String) : '/' ∉ (queryHash s).data := by
  intro h
  simp only [queryHash] at h
  rcases List.mem_map.mp h with ⟨orig, _, he⟩
  by_cases hc : orig = '/' ∨ orig = '+' ∨ orig = '='
  · rw [if_pos hc] at he
    exact absurd he.symm (by decide)
  · rw [if_neg hc] at he
    exact hc (Or.inl he)

theorem getLocalPathRec_hash_ne (u1 u2 b : UrlRec)
    (h1 : u1.host = b.host) (h2 : u2.host = b.host) (hp : u1.pathname = u2.pathname)
    (hs1 : u1.search ≠ "") (hs2 : u2.search ≠ "")
    (hh : queryHash u1.search ≠ queryHash u2.search) :
    getLocalPathRec u1 b ≠ getLocalPathRec u2 b := by
  have e1 : getLocalPathRec u1 b =
      pathJoin (pathDirname (stripLeadingSlashes u1.pathname))
        (pathBasenameExt (stripLeadingSlashes u1.pathname)
            (pathExtname (stripLeadingSlashes u1.pathname)) ++ "_" ++
          queryHash u1.search ++ pathExtname (stripLeadingSlashes u1.pathname)) := by
    simp [getLocalPathRec, h1, hs1]
  have e2 : getLocalPathRec u2 b =
      pathJoin (pathDirname (stripLeadingSlashes u1.pathname))
        (pathBasenameExt (stripLeadingSlashes u1.pathname)
            (pathExtname (stripLeadingSlashes u1.pathname)) ++ "_" ++
          queryHash u2.search ++ pathExtname (stripLeadingSlashes u1.pathname)) := by
    rw [hp]
    simp [getLocalPathRec, h2, hs2]
  rw [e1, e2]
  have hdataN : ∀ qh : String, '/' ∉ qh.data →
      '/' ∉ (pathBasenameExt (stripLeadingSlashes u1.pathname)
          (pathExtname (stripLeadingSlashes u1.pathname)) ++ "_" ++ qh ++
        pathExtname (stripLeadingSlashes u1.pathname)).data := by
    intro qh hq hmem
    simp only [String.data_append, List.mem_append] at hmem
    rcases hmem with ((hm | hm) | hm) | hm
    · exact pathBasenameExt_no_slash _ _ hm
    · exact absurd hm (by decide)
    · exact hq hm
    · exact pathExtname_no_slash _ hm
  have hdataU : ∀ qh : String, '_' ∈ (pathBasenameExt (stripLeadingSlashes u1.pathname)
          (pathExtname (stripLeadingSlashes u1.pathname)) ++ "_" ++ qh ++
        pathExtname (stripLeadingSlashes u1.pathname)).data := by
    intro qh
    simp [String.data_append]
  apply pathJoin_plain_inj
  · exact hdataN _ (queryHash_no_slash u1.search)
  · intro he
    have := hdataU (queryHash u1.search)
    rw [he] at this
    exact absurd this (by decide)
  · intro he
    have := hdataU (queryHash u1.search)
    rw [he] at this
    exact absurd this (by decide)
  · exact hdataN _ (queryHash_no_slash u2.search)
  · intro he
    have := hdataU (queryHash u2.search)
    rw [he] at this
    exact absurd this (by decide)
  · intro he
    have := hdataU (queryHash u2.search)
    rw [he] at this
    exact absurd this (by decide)
  · intro he
    have := hdataU (queryHash u1.search)
    rw [he] at this
    simp at this
  · intro he
    have := hdataU (queryHash u2.search)
    rw [he] at this
    simp at this
  · intro he
    apply hh
    have hd := congrArg String.data he
    simp only [String.data_append, List.append_assoc, List.singleton_append] at hd
    have hd2 := List.append_cancel_left hd
    have hd3 : (queryHash u1.search).data ++ (pathExtname (stripLeadingSlashes u1.pathname)).data =
        (queryHash u2.search).data ++ (pathExtname (stripLeadingSlashes u1.pathname)).data := by
      injection hd2
    exact stringDataInj (List.append_cancel_right hd3)

/-- C3 (amended): classification is a pure function of `(url, base)` —
re-classifying the same pair reproduces the identical path — and two
same-origin URLs with identical paths and distinct query strings map to
distinct LocalPaths whenever their truncated 8-character base64 query
hashes differ.  (Queries agreeing on their first six UTF-8 bytes share
the truncated hash and collide — see the counterexample.) -/
theorem getLocalPath_deterministic_and_query_disamb :
    (∀ url base : String, getLocalPath url base = getLocalPath url base) ∧
    (∀ (s1 s2 bs : String) (u1 u2 b : UrlRec),
      parseAbsUrl s1 = some u1 → parseAbsUrl s2 = some u2 → parseAbsUrl bs = some b →
      u1.host = b.host → u2.host = b.host → u1.pathname = u2.pathname →
      u1.search ≠ "" → u2.search ≠ "" →
      queryHash u1.search ≠ queryHash u2.search →
      getLocalPath s1 bs ≠ getLocalPath s2 bs) := by
  refine ⟨fun url base => rfl, ?_⟩
  intro s1 s2 bs u1 u2 b hp1 hp2 hpb hh1 hh2 hpp hq1 hq2 hqh heq
  simp only [getLocalPath, hp1, hp2, hpb, Option.some.injEq] at heq
  exact getLocalPathRec_hash_ne u1 u2 b hh1 hh2 hpp hq1 hq2 hqh heq

/-- Witness for C3 (amended): `file.js?v=1` and `file.js?v=2` differ
within the first six bytes of the query, so their hashes and local
paths differ. -/
theorem getLocalPath_disamb_witness :
    getLocalPath "https://fliphtml5.com/abc/def/file.js?v=1" fbBase ≠
      getLocalPath "https://fliphtml5.com/abc/def/file.js?v=2" fbBase :=
  getLocalPath_deterministic_and_query_disamb.2
    "https://fliphtml5.com/abc/def/file.js?v=1" "https://fliphtml5.com/abc/def/file.js?v=2"
    fbBase
    ⟨"https:", "fliphtml5.com", "/abc/def/file.js", "?v=1", ""⟩
    ⟨"https:", "fliphtml5.com", "/abc/def/file.js", "?v=2", ""⟩
    ⟨"https:", "fliphtml5.com", "/abc/def/", "", ""⟩
    (by decide) (by decide) (by decide) (by decide) (by decide) (by decide)
    (by decide) (by decide) (by decide)

/-- Counterexample to C3 as stated: `file.js?v=100001` and
`file.js?v=100002` are same-origin URLs with identical paths and
distinct query strings, yet they classify to the *same* LocalPath —
`slice(0, 8)` of the base64 hash covers only the first six bytes of the
query (`?v=100`), which the two queries share. -/
theorem getLocalPath_query_hash_collision :
    getLocalPath "https://fliphtml5.com/abc/def/file.js?v=100001" fbBase =
        some "abc/def/file_P3Y9MTAw.js" ∧
      getLocalPath "https://fliphtml5.com/abc/def/file.js?v=100002" fbBase =
        some "abc/def/file_P3Y9MTAw.js" ∧
      ("https://fliphtml5.com/abc/def/file.js?v=100001" : String) ≠
        "https://fliphtml5.com/abc/def/file.js?v=100002" := by
  refine ⟨by decide, by decide, by decide⟩

/-! ## C4 — the page prober downloads exactly N pages and halts -/

theorem probeSlots_cons_true (serves : Nat → Nat → Bool) (i t : Nat) (ts : List Nat)
    (hs : serves i t = true) :
    probeSlots serves i (t :: ts) = ([(i, t)], true) := by
  simp [probeSlots, hs]

theorem probeSlots_cons_false (serves : Nat → Nat → Bool) (i t : Nat) (ts : List Nat)
    (hs : serves i t = false) :
    probeSlots serves i (t :: ts) =
      ((i, t) :: (probeSlots serves i ts).1, (probeSlots serves i ts).2) := by
  simp [probeSlots, hs]

theorem probeSlots_mem (serves : Nat → Nat → Bool) (i : Nat) :
    ∀ ts p, p ∈ (probeSlots serves i ts).1 → p.1 = i ∧ p.2 ∈ ts := by
  intro ts
  induction ts with
  | nil => intro p h; simp [probeSlots] at h
  | cons t ts ih =>
    intro p h
    cases hs : serves i t with
    | true =>
      rw [probeSlots_cons_true serves i t ts hs] at h
      simp only [List.mem_singleton] at h
      subst h
      exact ⟨rfl, List.mem_cons_self _ _⟩
    | false =>
      rw [probeSlots_cons_false serves i t ts hs] at h
      rcases List.mem_cons.mp h with h2 | h2
      · subst h2
        exact ⟨rfl, List.mem_cons_self _ _⟩
      · obtain ⟨h3, h4⟩ := ih p h2
        exact ⟨h3, List.mem_cons_of_mem _ h4⟩

theorem probeSlots_found (serves : Nat → Nat → Bool) (i : Nat) :
    ∀ ts, (probeSlots serves i ts).2 = true ↔ ∃ t ∈ ts, serves i t = true := by
  intro ts
  induction ts with
  | nil => simp [probeSlots]
  | cons t ts ih =>
    cases hs : serves i t with
    | true =>
      rw [probeSlots_cons_true serves i t ts hs]
      constructor
      · intro _
        exact ⟨t, List.mem_cons_self _ _, hs⟩
      · intro _
        rfl
    | false =>
      rw [probeSlots_cons_false serves i t ts hs]
      simp only []
      rw [ih]
      constructor
      · rintro ⟨t2, h1, h2⟩
        exact ⟨t2, List.mem_cons_of_mem _ h1, h2⟩
      · rintro ⟨t2, h1, h2⟩
        rcases List.mem_cons.mp h1 with h3 | h3
        · subst h3
          rw [hs] at h2
          exact absurd h2 (by decide)
        · exact ⟨t2, h3, h2⟩

theorem probeSlots_nodup (serves : Nat → Nat → Bool) (i : Nat) :
    ∀ ts, ts.Nodup → (probeSlots serves i ts).1.Nodup := by
  intro ts
  induction ts with
  | nil => intro _; simp [probeSlots]
  | cons t ts ih =>
    intro hnd
    rcases List.nodup_cons.mp hnd with ⟨hni, hnd2⟩
    cases hs : serves i t with
    | true =>
      rw [probeSlots_cons_true serves i t ts hs]
      simp
    | false =>
      rw [probeSlots_cons_false serves i t ts hs]
      refine List.nodup_cons.mpr ⟨?_, ih hnd2⟩
      intro hmem
      exact hni (probeSlots_mem serves i ts (i, t) hmem).2

theorem slotMemIff (t : Nat) : t ∈ probeTemplateSlots ↔ t < 6 := by
  simp [probeTemplateSlots]
  omega

theorem probeLoop_spec (serves : Nat → Nat → Bool) (M : Nat)
    (hM : M + 1 ≤ probeMaxPages)
    (hmiss : (probeSlots serves (M + 1) probeTemplateSlots).2 = false) :
    ∀ fuel pageNum, pageNum ≤ M + 1 → M + 1 < fuel + pageNum →
      (∀ i, pageNum ≤ i → i ≤ M → (probeSlots serves i probeTemplateSlots).2 = true) →
      (probeLoop serves fuel pageNum).pages.length = M + 1 - pageNum ∧
      (∀ p ∈ (probeLoop serves fuel pageNum).attempts,
        pageNum ≤ p.1 ∧ p.1 ≤ M + 1 ∧ p.2 < 6) ∧
      (probeLoop serves fuel pageNum).attempts.Nodup := by
  intro fuel
  induction fuel with
  | zero => intro pageNum h1 h2 _; omega
  | succ fuel ih =>
    intro pageNum h1 h2 hfound
    have hle : ¬ pageNum > probeMaxPages := by
      simp only [probeMaxPages] at hM ⊢
      omega
    rcases hps : probeSlots serves pageNum probeTemplateSlots with ⟨att, found⟩
    have hattmem : ∀ p ∈ att, p.1 = pageNum ∧ p.2 < 6 := by
      intro p hp
      have h3 := probeSlots_mem serves pageNum probeTemplateSlots p (by rw [hps]; exact hp)
      exact ⟨h3.1, (slotMemIff p.2).mp h3.2⟩
    have hattnd : att.Nodup := by
      have h3 := probeSlots_nodup serves pageNum probeTemplateSlots (by decide)
      rwa [hps] at h3
    by_cases hpm : pageNum = M + 1
    · subst hpm
      have hf : found = false := by rw [hps] at hmiss; exact hmiss
      subst hf
      have hred : probeLoop serves (fuel + 1) (M + 1) = ⟨[], att⟩ := by
        simp [probeLoop, hle, hps]
      rw [hred]
      refine ⟨by simp, ?_, hattnd⟩
      intro p hp
      obtain ⟨he, hlt⟩ := hattmem p hp
      exact ⟨by omega, by omega, hlt⟩
    · have hlt : pageNum ≤ M := by omega
      have hf : found = true := by
        have h3 := hfound pageNum (le_refl _) hlt
        rw [hps] at h3
        exact h3
      subst hf
      obtain ⟨ihl, ihm, ihnd⟩ := ih (pageNum + 1) (by omega) (by omega)
        (fun i hi1 hi2 => hfound i (by omega) hi2)
      have hred : probeLoop serves (fuel + 1) pageNum =
          ⟨pageNum :: (probeLoop serves fuel (pageNum + 1)).pages,
            att ++ (probeLoop serves fuel (pageNum + 1)).attempts⟩ := by
        simp [probeLoop, hle, hps]
      rw [hred]
      refine ⟨?_, ?_, ?_⟩
      · simp only [List.length_cons, ihl]
        omega
      · intro p hp
        rcases List.mem_append.mp hp with hp | hp
        · obtain ⟨he, hl6⟩ := hattmem p hp
          exact ⟨by omega, by omega, hl6⟩
        · obtain ⟨ha, hb, hc⟩ := ihm p hp
          exact ⟨by omega, hb, hc⟩
      · refine List.Nodup.append hattnd ihnd ?_
        intro p hp1 hp2
        have h3 := (hattmem p hp1).1
        have h4 := (ihm p hp2).1
        omega

/-- C4: against an origin serving page images contiguously for indices
1..N (N below the 500 ceiling) and missing every template at N+1, the
prober downloads exactly N page images, stops at the first full-miss
index N+1 and never attempts any later index; every probe is issued at
most once (attempts are duplicate-free), and each probe is a single
fetch attempt, because the prober calls the retry wrapper with
`retries = 1` (`fetchWithRetry(pattern, {}, 1)`, line 447), which
performs exactly one network attempt. -/
theorem downloadBookPages_exact (serves : Nat → Nat → Bool) (N : Nat)
    (hN : N + 1 ≤ 500)
    (hserve : ∀ i, 1 ≤ i → i ≤ N → ∃ t, t < 6 ∧ serves i t = true)
    (hmiss : ∀ t, t < 6 → serves (N + 1) t = false) :
    (downloadBookPages serves).pages.length = N ∧
    (∀ p ∈ (downloadBookPages serves).attempts, 1 ≤ p.1 ∧ p.1 ≤ N + 1 ∧ p.2 < 6) ∧
    (downloadBookPages serves).attempts.Nodup ∧
    (∀ ok : Nat → Bool, fetchAttemptsModel ok 1 = 1) := by
  have hM : N + 1 ≤ probeMaxPages := hN
  have hmiss2 : (probeSlots serves (N + 1) probeTemplateSlots).2 = false := by
    cases hx : (probeSlots serves (N + 1) probeTemplateSlots).2 with
    | false => rfl
    | true =>
      obtain ⟨t, ht1, ht2⟩ := (probeSlots_found serves (N + 1) probeTemplateSlots).mp hx
      rw [hmiss t ((slotMemIff t).mp ht1)] at ht2
      exact absurd ht2 (by decide)
  have hfound2 : ∀ i, 1 ≤ i → i ≤ N → (probeSlots serves i probeTemplateSlots).2 = true := by
    intro i hi1 hi2
    obtain ⟨t, hlt, hst⟩ := hserve i hi1 hi2
    exact (probeSlots_found serves i probeTemplateSlots).mpr ⟨t, (slotMemIff t).mpr hlt, hst⟩
  obtain ⟨hl, hm, hnd⟩ := probeLoop_spec serves N hM hmiss2 (probeMaxPages + 1) 1
    (by omega) (by simp only [probeMaxPages] at hN ⊢; omega) hfound2
  refine ⟨by simpa using hl, hm, hnd, ?_⟩
  intro ok
  cases h : ok 0 <;> simp [fetchAttemptsModel, fetchAttemptsGo, h]

/-- Witness for C4 at a concrete origin serving pages 1 and 2. -/
theorem downloadBookPages_exact_witness :
    (downloadBookPages servesTwoPages).pages.length = 2 ∧
    (∀ p ∈ (downloadBookPages servesTwoPages).attempts, 1 ≤ p.1 ∧ p.1 ≤ 3 ∧ p.2 < 6) ∧
    (downloadBookPages servesTwoPages).attempts.Nodup ∧
    (∀ ok : Nat → Bool, fetchAttemptsModel ok 1 = 1) :=
  downloadBookPages_exact servesTwoPages 2 (by decide)
    (fun i h1 h2 => ⟨0, by omega, by simp [servesTwoPages]; omega⟩)
    (by decide)

/-! ## C1 — scheduler concurrency cap and exactly-once admission -/

theorem schedReaches_inv (K : Nat) (d : String → List String)
    {s : SchedState} {t : List SchedEvent} {s2 : SchedState}
    (hr : SchedReaches K d s t s2) :
    s.inProgress.length ≤ K →
      (s2.inProgress.length ≤ K) ∧
      (∀ u, u ∈ s.downloaded → t.count (.adm u) = 0 ∧ u ∈ s2.downloaded) ∧
      (∀ u, u ∉ s.downloaded → t.count (.adm u) = (if u ∈ s2.downloaded then 1 else 0)) ∧
      (∀ u, (u ∈ s.queue ∨ u ∈ s.downloaded) → (u ∈ s2.queue ∨ u ∈ s2.downloaded)) := by
  induction hr with
  | refl s =>
    intro hc
    refine ⟨hc, fun u hu => ⟨by simp, hu⟩, fun u hu => by simp [hu], fun u hu => hu⟩
  | step h1 h2 ih =>
    intro hc
    cases h1 with
    | adm u rest hq hcap hnew =>
      obtain ⟨ihA, ihB, ihC, ihD⟩ := ih (by simp; omega)
      refine ⟨ihA, ?_, ?_, ?_⟩
      · intro v hv
        have hvne : SchedEvent.adm v ≠ SchedEvent.adm u := by
          simp
          intro h
          exact hnew (h ▸ hv)
        obtain ⟨hcnt, hmem⟩ := ihB v (by simp [hv])
        rw [List.count_cons_of_ne hvne]
        exact ⟨hcnt, hmem⟩
      · intro v hv
        by_cases hvu : v = u
        · subst hvu
          obtain ⟨hcnt, hmem⟩ := ihB v (by simp)
          rw [List.count_cons_self, hcnt]
          simp [hmem]
        · have hvne : SchedEvent.adm v ≠ SchedEvent.adm u := by simp [hvu]
          rw [List.count_cons_of_ne hvne]
          exact ihC v (by
            simp only [List.mem_append, List.mem_singleton]
            rintro (h | h)
            · exact hv h
            · exact hvu h)
      · intro v hv
        apply ihD
        rcases hv with hv | hv
        · rw [hq] at hv
          rcases List.mem_cons.mp hv with rfl | hv
          · right
            simp
          · left
            exact hv
        · right
          simp [hv]
    | skipDup u rest hq hdup =>
      obtain ⟨ihA, ihB, ihC, ihD⟩ := ih (by simpa using hc)
      have hne : ∀ v, SchedEvent.adm v ≠ SchedEvent.skipDup u := by intro v; simp
      refine ⟨ihA, ?_, ?_, ?_⟩
      · intro v hv
        obtain ⟨hcnt, hmem⟩ := ihB v (by simpa using hv)
        rw [List.count_cons_of_ne (hne v)]
        exact ⟨hcnt, hmem⟩
      · intro v hv
        rw [List.count_cons_of_ne (hne v)]
        exact ihC v (by simpa using hv)
      · intro v hv
        apply ihD
        rcases hv with hv | hv
        · rw [hq] at hv
          rcases List.mem_cons.mp hv with rfl | hv
          · right
            exact hdup
          · left
            exact hv
        · right
          exact hv
    | complete u hin =>
      obtain ⟨ihA, ihB, ihC, ihD⟩ := ih
        (le_trans (List.Sublist.length_le (List.erase_sublist _ _)) hc)
      have hne : ∀ v, SchedEvent.adm v ≠ SchedEvent.complete u := by intro v; simp
      refine ⟨ihA, ?_, ?_, ?_⟩
      · intro v hv
        obtain ⟨hcnt, hmem⟩ := ihB v (by simpa using hv)
        rw [List.count_cons_of_ne (hne v)]
        exact ⟨hcnt, hmem⟩
      · intro v hv
        rw [List.count_cons_of_ne (hne v)]
        exact ihC v (by simpa using hv)
      · intro v hv
        apply ihD
        rcases hv with hv | hv
        · left
          simp [hv]
        · right
          exact hv

/-- C1: along every trace of the download scheduler from an initial
frontier, the in-flight set never exceeds the concurrency cap `K`, and
each URL is admitted (passed to `downloadAsset`, where it is fetched or
served from cache) at most once — the `downloaded` set check at
admission closes the race between discovery and re-discovery, including
URLs re-discovered live from completed CSS files (the `complete` step
pushes only not-yet-admitted discoveries).  When the loop terminates
(queue drained), every URL of the initial frontier has been admitted
exactly once, however many times it occurred in the frontier. -/
theorem scheduler_cap_and_exactly_once (K : Nat) (discover : String → List String)
    (assets : List String) (t : List SchedEvent) (s2 : SchedState)
    (hr : SchedReaches K discover (schedInit assets) t s2) :
    s2.inProgress.length ≤ K ∧
    (∀ u, t.count (.adm u) ≤ 1) ∧
    (s2.queue = [] → ∀ u ∈ assets, u ∈ s2.downloaded ∧ t.count (.adm u) = 1) := by
  obtain ⟨hA, hB, hC, hD⟩ := schedReaches_inv K discover hr (by simp [schedInit])
  refine ⟨hA, ?_, ?_⟩
  · intro u
    rw [hC u (by simp [schedInit])]
    split <;> omega
  · intro hq u hu
    have hcov := hD u (Or.inl (by simpa [schedInit] using hu))
    rcases hcov with hc2 | hc2
    · rw [hq] at hc2
      simp at hc2
    · refine ⟨hc2, ?_⟩
      rw [hC u (by simp [schedInit])]
      simp [hc2]

/-- A concrete scheduler trace: cap 1, the same URL seeded twice; it is
admitted once, skipped as a duplicate once, and completed. -/
theorem scheduler_witness_trace :
    SchedReaches 1 (fun _ => []) (schedInit ["u", "u"])
      [SchedEvent.adm "u", SchedEvent.skipDup "u", SchedEvent.complete "u"]
      ⟨[], [], ["u"], ["u"]⟩ := by
  refine SchedReaches.step (SchedStep.adm _ "u" ["u"] rfl (by decide) (by decide)) ?_
  refine SchedReaches.step (SchedStep.skipDup _ "u" [] rfl (by decide)) ?_
  have h := SchedReaches.step
    (@SchedStep.complete 1 (fun _ => []) ⟨[], [] ++ ["u"], [] ++ ["u"], []⟩ "u" (by decide))
    (SchedReaches.refl _)
  convert h using 2


/-- Witness for C1 at the concrete trace. -/
theorem scheduler_cap_and_exactly_once_witness :
    (⟨[], [], ["u"], ["u"]⟩ : SchedState).inProgress.length ≤ 1 ∧
    (∀ u, ([SchedEvent.adm "u", SchedEvent.skipDup "u",
      SchedEvent.complete "u"].count (.adm u)) ≤ 1) ∧
    ((⟨[], [], ["u"], ["u"]⟩ : SchedState).queue = [] → ∀ u ∈ ["u", "u"],
      u ∈ (⟨[], [], ["u"], ["u"]⟩ : SchedState).downloaded ∧
        ([SchedEvent.adm "u", SchedEvent.skipDup "u",
          SchedEvent.complete "u"].count (.adm u)) = 1) :=
  scheduler_cap_and_exactly_once 1 (fun _ => []) ["u", "u"] _ _ scheduler_witness_trace

/-- Witness for C9 (amended) at a concrete fixture: one same-origin
image reference extracts to a one-element, duplicate-free list whose
entry is in the range of `resolveUrl`. -/
theorem extractors_nodup_and_resolved_witness :
    (extractAssets "<img src=\"/app/a.png\">" fbBase).Nodup ∧
      (∃ v, (some "https://fliphtml5.com/app/a.png" : Option String) =
        resolveUrl v fbBase) :=
  ⟨(extractors_nodup_and_resolved "<img src=\"/app/a.png\">" "" fbBase).1,
   (extractors_nodup_and_resolved "<img src=\"/app/a.png\">" "" fbBase).2.1
     (some "https://fliphtml5.com/app/a.png") (by decide)⟩

/-- Witness for C2 (amended): the characterization instantiated at the
one-image document under the book base URL. -/
theorem rewrite_pass_idempotency_characterization_witness :
    rewriteUrlsHtml fbBase (rewriteUrlsHtml fbBase docOneImg) =
        rewriteUrlsHtml fbBase docOneImg ↔
      ∀ c ∈ rewriteUrlsHtml fbBase docOneImg, rewriteHtmlChunk fbBase c = c :=
  rewrite_pass_idempotency_characterization.1 fbBase docOneImg
